import Mathlib

/-!
Verification of the Shift-Sync repository's reconciliation core.

The Go CLI (`shift_sync_go/main.go`), the EventKit service
(`CalendarService.swift`), and the Google Calendar service
(`GoogleCalendarService.swift`) are shallowly embedded here:

* source-language strings are modelled as `List Char` (`Str`);
* `time.Time` / `Date` instants are modelled as `Int` minutes since
  1970-01-01 00:00 in the process-local time zone, with Go's `time.Date`
  normalisation reproduced by proleptic-Gregorian civil-calendar arithmetic;
* SHA-1 (`crypto/sha1`, `Insecure.SHA1`) is implemented in full over byte
  lists, machine words being `Nat` reduced mod 2^32;
* the throwing EventKit store calls are driven by an explicit failure
  oracle, and the stateful sync runs thread an explicit store value.
-/

set_option maxRecDepth 100000

namespace ShiftSync

/-- Source-language strings (Go `string`, Swift `String`) are modelled as
lists of characters. -/
abbrev Str := List Char

/-! ## Decimal and hexadecimal formatting -/

/-- The decimal digit character for `d < 10`. -/
def digitChar (d : Nat) : Char := Char.ofNat (48 + d)

/-- Zero-padded fixed-width decimal rendering (the last `w` decimal digits
of `n`), as produced by Go's `Format` paddings for in-range fields. -/
def padNum : Nat → Nat → Str
  | 0, _ => []
  | w + 1, n => padNum w (n / 10) ++ [digitChar (n % 10)]

/-- Decimal digit sequence of `n` without padding; `fuel` bounds recursion. -/
def natDigitsAux : Nat → Nat → Str
  | 0, _ => []
  | fuel + 1, n =>
      if n = 0 then [] else natDigitsAux fuel (n / 10) ++ [digitChar (n % 10)]

/-- Go renders a year in the `2006` layout zero-padded to four digits, and
with all its digits when it needs more than four. -/
def formatYear (y : Nat) : Str :=
  if y < 10000 then padNum 4 y else natDigitsAux y y

/-- Lower-case hexadecimal digit character for `d < 16`. -/
def hexDigitChar (d : Nat) : Char :=
  if d < 10 then Char.ofNat (48 + d) else Char.ofNat (87 + d)

/-- Two lower-case hex characters of one byte. -/
def hexByte (b : Nat) : Str := [hexDigitChar (b / 16), hexDigitChar (b % 16)]

/-- Go `hex.EncodeToString` over a byte list. -/
def hexEncode (bs : List Nat) : Str := (bs.map hexByte).flatten

/-- UTF-8 encoding of one character (Go strings hold UTF-8 bytes). -/
def utf8EncodeChar (c : Char) : List Nat :=
  let n := c.toNat
  if n < 128 then [n]
  else if n < 2048 then [192 + n / 64, 128 + n % 64]
  else if n < 65536 then [224 + n / 4096, 128 + (n / 64) % 64, 128 + n % 64]
  else [240 + n / 262144, 128 + (n / 4096) % 64, 128 + (n / 64) % 64, 128 + n % 64]

/-- UTF-8 encoding of a string. -/
def utf8Encode (s : Str) : List Nat := (s.map utf8EncodeChar).flatten

/-! ## SHA-1 (`crypto/sha1`, CryptoKit `Insecure.SHA1`) -/

/-- Left rotation of a 32-bit word held in a `Nat`. -/
def rotl (k x : Nat) : Nat := ((x <<< k) % 4294967296) ||| (x >>> (32 - k))

/-- Big-endian byte rendering, most significant of `k` bytes first. -/
def beBytes : Nat → Nat → List Nat
  | 0, _ => []
  | k + 1, n => (n >>> (8 * k)) % 256 :: beBytes k n

/-- SHA-1 message padding: `0x80`, zeros to 56 mod 64, 64-bit bit length. -/
def sha1Pad (msg : List Nat) : List Nat :=
  let L := msg.length
  msg ++ 128 :: (List.replicate ((119 - L % 64) % 64) 0 ++ beBytes 8 (8 * L))

/-- Big-endian 32-bit words of a byte list (groups of four). -/
def toWords : List Nat → List Nat
  | b0 :: b1 :: b2 :: b3 :: rest =>
      (((b0 * 256 + b1) * 256 + b2) * 256 + b3) :: toWords rest
  | _ => []

/-- Rolling hash state of SHA-1. -/
structure SHA1State where
  a : Nat
  b : Nat
  c : Nat
  d : Nat
  e : Nat

/-- Extend the 16-word schedule to 80 words; `acc` holds the schedule so far
in reverse (most recent word first). -/
def extendSchedule : Nat → List Nat → List Nat
  | 0, acc => acc.reverse
  | k + 1, acc =>
      let w := rotl 1 ((acc.getD 2 0) ^^^ (acc.getD 7 0) ^^^ (acc.getD 13 0) ^^^ (acc.getD 15 0))
      extendSchedule k (w :: acc)

/-- The 80 SHA-1 rounds, consuming the schedule; `i` is the round index. -/
def sha1Rounds : Nat → List Nat → SHA1State → SHA1State
  | _, [], st => st
  | i, w :: ws, ⟨a, b, c, d, e⟩ =>
      let f :=
        if i < 20 then (b &&& c) ||| ((b ^^^ 4294967295) &&& d)
        else if i < 40 then b ^^^ c ^^^ d
        else if i < 60 then (b &&& c) ||| (b &&& d) ||| (c &&& d)
        else b ^^^ c ^^^ d
      let k :=
        if i < 20 then 1518500249
        else if i < 40 then 1859775393
        else if i < 60 then 2400959708
        else 3395469782
      let temp := (rotl 5 a + f + e + k + w) % 4294967296
      sha1Rounds (i + 1) ws ⟨temp, a, rotl 30 b, c, d⟩

/-- One 64-byte SHA-1 block applied to the rolling state. -/
def sha1Block (chunk : List Nat) (h : SHA1State) : SHA1State :=
  let sched := extendSchedule 64 (toWords chunk).reverse
  let st := sha1Rounds 0 sched h
  ⟨(h.a + st.a) % 4294967296, (h.b + st.b) % 4294967296, (h.c + st.c) % 4294967296,
   (h.d + st.d) % 4294967296, (h.e + st.e) % 4294967296⟩

/-- Fold over all 64-byte blocks; `fuel` bounds the recursion. -/
def sha1Chunks : Nat → List Nat → SHA1State → SHA1State
  | 0, _, h => h
  | _ + 1, [], h => h
  | fuel + 1, b :: rest, h =>
      sha1Chunks fuel ((b :: rest).drop 64) (sha1Block ((b :: rest).take 64) h)

/-- SHA-1 digest (20 bytes) of a byte list. -/
def sha1 (msg : List Nat) : List Nat :=
  let padded := sha1Pad msg
  let h := sha1Chunks padded.length padded
    ⟨1732584193, 4023233417, 2562383102, 271733878, 3285377520⟩
  beBytes 4 h.a ++ beBytes 4 h.b ++ beBytes 4 h.c ++ beBytes 4 h.d ++ beBytes 4 h.e

/-- Sanity check of the SHA-1 embedding against the FIPS 180 test vector. -/
theorem sha1_test_vector_abc :
    hexEncode (sha1 (utf8Encode "abc".toList)) =
      "a9993e364706816aba3e25717850c26c9cd0d89d".toList := by decide

/-! ## Instants and Go `time.Date` normalisation -/

/-- Days from 1970-01-01 of the first day of month `m ∈ [1,12]` of year `y`
in the proleptic Gregorian calendar (civil-calendar algorithm). -/
def daysFromCivilNorm (y m : Int) : Int :=
  let y2 := if m ≤ 2 then y - 1 else y
  let era := y2.ediv 400
  let yoe := y2 - era * 400
  let mp := (m + 9).emod 12
  let doy := (153 * mp + 2).ediv 5
  let doe := yoe * 365 + yoe.ediv 4 - yoe.ediv 100 + doy
  era * 146097 + doe - 719468

/-- Go `time.Date(year, month, day, hour, minute, 0, 0, loc)` as minutes
from 1970-01-01 00:00; out-of-range fields are normalised, as in Go. -/
def goDate (year month day hour minute : Int) : Int :=
  let ym := 12 * year + (month - 1)
  let y := ym.ediv 12
  let m := ym.emod 12 + 1
  (daysFromCivilNorm y m + (day - 1)) * 1440 + hour * 60 + minute

/-- Civil (year, month, day) of a day count from 1970-01-01. -/
def civilFromDays (z : Int) : Int × Int × Int :=
  let z2 := z + 719468
  let era := z2.ediv 146097
  let doe := z2 - era * 146097
  let yoe := (doe - doe.ediv 1460 + doe.ediv 36524 - doe.ediv 146096).ediv 365
  let y := yoe + era * 400
  let doy := doe - (365 * yoe + yoe.ediv 4 - yoe.ediv 100)
  let mp := (5 * doy + 2).ediv 153
  let d := doy - (153 * mp + 2).ediv 5 + 1
  let m := mp + (if mp < 10 then 3 else (-9))
  (if m ≤ 2 then y + 1 else y, m, d)

/-- Go layout `20060102` applied to an instant. -/
def dateStamp (t : Int) : Str :=
  let c := civilFromDays (t.ediv 1440)
  formatYear c.1.toNat ++ padNum 2 c.2.1.toNat ++ padNum 2 c.2.2.toNat

/-- Go layout `1504` applied to an instant (`15` and `04` are zero-padded
hour-of-day and minute fields). -/
def timeStamp (t : Int) : Str :=
  let r := (t.emod 1440).toNat
  padNum 2 (r / 60) ++ padNum 2 (r % 60)

/-- Go layout `20060102T1504` applied to an instant. -/
def minuteStamp (t : Int) : Str := dateStamp t ++ ['T'] ++ timeStamp t

/-! ## The identity function

`makeShiftUID` (main.go:938-943) and `Shift.makeUID`
(SyncLogEntry.swift:114-138) implement the same derivation, embedded once
as `shiftUIDCore`. -/

/-- The hashed key `start.Format("20060102T1504")-end.Format(...)-location`. -/
def shiftUIDKey (start stop : Int) (location : Str) : Str :=
  minuteStamp start ++ ['-'] ++ minuteStamp stop ++ ['-'] ++ location

/-- The truncated digest: first 8 hex characters of SHA-1 of the key. -/
def shiftUIDHash (start stop : Int) (location : Str) : Str :=
  (hexEncode (sha1 (utf8Encode (shiftUIDKey start stop location)))).take 8

/-- The identity string `shift-<date>-<start>-<end>-<hash>` shared by the Go
and Swift implementations. -/
def shiftUIDCore (start stop : Int) (location : Str) : Str :=
  "shift-".toList ++ dateStamp start ++ ['-'] ++ timeStamp start ++ ['-'] ++
    timeStamp stop ++ ['-'] ++ shiftUIDHash start stop location

/-- Go's `shift` record (main.go). -/
structure shift where
  Title : Str
  Start : Int
  End : Int
  Location : Str
  Memo : Str
  deriving DecidableEq, Repr

/-- Go `makeShiftUID` (main.go:938-943). -/
def makeShiftUID (s : shift) : Str := shiftUIDCore s.Start s.End s.Location

/-- Sanity check of the identity embedding (date arithmetic, UTF-8, SHA-1,
hex truncation) against the reference implementation: the shift
2026-01-15 10:00-18:00 at `LOC28017`. -/
theorem makeShiftUID_test_vector :
    makeShiftUID ⟨"x".toList, 29474520, 29475000, "LOC28017".toList, []⟩ =
      "shift-20260115-1000-1800-1f902bac".toList := by decide

/-! ## Injectivity facts about the textual renderings -/

/-- Decimal reading of a digit string, inverse to `padNum` on its range. -/
def decodeNum (s : Str) : Nat := s.foldl (fun a c => a * 10 + (c.toNat - 48)) 0

theorem padNum_length (w n : Nat) : (padNum w n).length = w := by
  induction w generalizing n with
  | zero => rfl
  | succ w ih => simp [padNum, ih]

theorem digitChar_toNat {d : Nat} (h : d < 10) : (digitChar d).toNat = 48 + d := by
  interval_cases d <;> decide

theorem foldl_padNum (w : Nat) : ∀ n a : Nat,
    (padNum w n).foldl (fun a c => a * 10 + (c.toNat - 48)) a = a * 10 ^ w + n % 10 ^ w := by
  induction w with
  | zero => intro n a; simp [padNum, Nat.mod_one]
  | succ w ih =>
    intro n a
    rw [padNum, List.foldl_append, ih]
    simp only [List.foldl_cons, List.foldl_nil]
    rw [digitChar_toNat (Nat.mod_lt n (by norm_num))]
    have h1 : 48 + n % 10 - 48 = n % 10 := by omega
    have h2 : n % 10 ^ (w + 1) = n % 10 + 10 * (n / 10 % 10 ^ w) := by
      rw [pow_succ, mul_comm (10 ^ w) 10, Nat.mod_mul]
    rw [h1, h2]; ring

theorem decodeNum_append_padNum (x : Str) (w m : Nat) :
    decodeNum (x ++ padNum w m) = decodeNum x * 10 ^ w + m % 10 ^ w := by
  rw [decodeNum, List.foldl_append, foldl_padNum]; rfl

theorem decodeNum_padNum (w n : Nat) : decodeNum (padNum w n) = n % 10 ^ w := by
  simpa [decodeNum] using foldl_padNum w n 0

theorem timeStamp_length (t : Int) : (timeStamp t).length = 4 := by
  simp [timeStamp, padNum_length]

theorem emod_1440_bounds (t : Int) : 0 ≤ t.emod 1440 ∧ t.emod 1440 < 1440 :=
  ⟨Int.emod_nonneg t (by norm_num), Int.emod_lt_of_pos t (by norm_num)⟩

theorem decode_timeStamp (t : Int) :
    decodeNum (timeStamp t) =
      (t.emod 1440).toNat / 60 * 100 + (t.emod 1440).toNat % 60 := by
  have hb := emod_1440_bounds t
  have hr : (t.emod 1440).toNat < 1440 := by omega
  rw [timeStamp, decodeNum_append_padNum, decodeNum_padNum]
  norm_num
  omega

theorem timeStamp_inj {t u : Int} (h : timeStamp t = timeStamp u) :
    t.emod 1440 = u.emod 1440 := by
  have hd : decodeNum (timeStamp t) = decodeNum (timeStamp u) := by rw [h]
  rw [decode_timeStamp, decode_timeStamp] at hd
  have hbt := emod_1440_bounds t
  have hbu := emod_1440_bounds u
  omega

theorem timeStamp_add_ne {t δ : Int} (hδ : δ.emod 1440 ≠ 0) :
    timeStamp (t + δ) ≠ timeStamp t := by
  intro h
  apply hδ
  have he := timeStamp_inj h
  have hdvd : (1440 : Int) ∣ δ := by
    have : (1440 : Int) ∣ (t + δ) - t := Int.ModEq.dvd he.symm
    simpa using this
  exact Int.emod_eq_zero_of_dvd hdvd

theorem hexEncode_length (bs : List Nat) : (hexEncode bs).length = 2 * bs.length := by
  induction bs with
  | nil => rfl
  | cons b bs ih =>
    simp only [hexEncode, List.map_cons, List.flatten_cons, List.length_append,
      List.length_cons] at ih ⊢
    simp [hexByte] at ih ⊢
    omega

theorem beBytes_length (k n : Nat) : (beBytes k n).length = k := by
  induction k generalizing n with
  | zero => rfl
  | succ k ih => simp [beBytes, ih]

theorem sha1_length (msg : List Nat) : (sha1 msg).length = 20 := by
  simp [sha1, beBytes_length]

theorem shiftUIDHash_length (s e : Int) (l : Str) :
    (shiftUIDHash s e l).length = 8 := by
  simp [shiftUIDHash, List.length_take, hexEncode_length, sha1_length]

/-- Peeling the fixed-width fields off an identity-string equality: the two
time stamps, the date stamp and the hash suffix must agree separately. -/
theorem shiftUIDCore_inj_parts {s1 e1 s2 e2 : Int} {l1 l2 : Str}
    (h : shiftUIDCore s1 e1 l1 = shiftUIDCore s2 e2 l2) :
    dateStamp s1 = dateStamp s2 ∧ timeStamp s1 = timeStamp s2 ∧
      timeStamp e1 = timeStamp e2 ∧ shiftUIDHash s1 e1 l1 = shiftUIDHash s2 e2 l2 := by
  unfold shiftUIDCore at h
  obtain ⟨h, hhash⟩ := List.append_inj' h (by rw [shiftUIDHash_length, shiftUIDHash_length])
  obtain ⟨h, -⟩ := List.append_inj' h rfl
  obtain ⟨h, hte⟩ := List.append_inj' h (by rw [timeStamp_length, timeStamp_length])
  obtain ⟨h, -⟩ := List.append_inj' h rfl
  obtain ⟨h, hts⟩ := List.append_inj' h (by rw [timeStamp_length, timeStamp_length])
  obtain ⟨h, -⟩ := List.append_inj' h rfl
  obtain ⟨-, hdate⟩ := List.append_inj h rfl
  exact ⟨hdate, hts, hte, hhash⟩

/-! ## Claim C6 -/

/-- Claim C6, counterexample to its location-sensitivity conjunct: the
identity truncates the SHA-1 digest to 8 hex characters (32 bits), and the
shifts 2026-01-15 10:00-18:00 at `LOC28017` and at `LOC60583` produce
colliding truncated digests, hence equal identities although only the
location differs. -/
theorem identity_location_collision :
    makeShiftUID ⟨"x".toList, 29474520, 29475000, "LOC28017".toList, []⟩ =
      makeShiftUID ⟨"x".toList, 29474520, 29475000, "LOC60583".toList, []⟩ ∧
      ("LOC28017".toList : Str) ≠ "LOC60583".toList := by
  constructor
  · decide
  · decide

/-- Claim C6 (amended): the identity is a pure, deterministic function of
(start, end, location): equal such triples give the same string, and title
and memo never enter; moving start or end by any duration that is not a
whole number of days — in particular by one minute — changes the identity;
changing only the location leaves the readable prefix unchanged and changes
the identity exactly when it changes the truncated 8-character SHA-1
suffix, which a truncated-digest collision can leave unchanged. -/
theorem identity_determinism_and_sensitivity :
    (∀ s s' : shift, s.Start = s'.Start → s.End = s'.End → s.Location = s'.Location →
      makeShiftUID s = makeShiftUID s') ∧
    (∀ (s : shift) (δ : Int), δ.emod 1440 ≠ 0 →
      makeShiftUID { s with Start := s.Start + δ } ≠ makeShiftUID s) ∧
    (∀ (s : shift) (δ : Int), δ.emod 1440 ≠ 0 →
      makeShiftUID { s with End := s.End + δ } ≠ makeShiftUID s) ∧
    (∀ (s : shift) (l : Str),
      makeShiftUID { s with Location := l } = makeShiftUID s ↔
        shiftUIDHash s.Start s.End l = shiftUIDHash s.Start s.End s.Location) := by
  refine ⟨?_, ?_, ?_, ?_⟩
  · intro s s' h1 h2 h3
    simp [makeShiftUID, h1, h2, h3]
  · intro s δ hδ h
    exact timeStamp_add_ne hδ (shiftUIDCore_inj_parts h).2.1
  · intro s δ hδ h
    exact timeStamp_add_ne hδ (shiftUIDCore_inj_parts h).2.2.1
  · intro s l
    constructor
    · intro h
      exact (shiftUIDCore_inj_parts h).2.2.2
    · intro h
      simp only [makeShiftUID, shiftUIDCore]
      rw [h]

/-- Witness for the amended C6 theorem at concrete inputs: one minute is not
a whole number of days, and the corresponding instances hold. -/
theorem identity_determinism_and_sensitivity_witness :
    ((1 : Int).emod 1440 ≠ 0) ∧
      makeShiftUID ⟨"x".toList, 29474520 + 1, 29475000, "LOC28017".toList, []⟩ ≠
        makeShiftUID ⟨"x".toList, 29474520, 29475000, "LOC28017".toList, []⟩ :=
  ⟨by decide, identity_determinism_and_sensitivity.2.1
    ⟨"x".toList, 29474520, 29475000, "LOC28017".toList, []⟩ 1 (by decide)⟩

/-! ## String utilities of the Go and Swift sources

Go `strings.HasPrefix`, `strings.HasSuffix` and `strings.TrimSuffix` are
embedded as `hasPfx`, `hasSfx` and `trimSfx`; Swift's `range(of:)`
first-occurrence search is embedded as `findSub`. -/

/-- Go `strings.HasPrefix`. -/
def hasPfx (s pre : Str) : Bool := pre.isPrefixOf s

/-- Go `strings.HasSuffix`. -/
def hasSfx (s suf : Str) : Bool := suf.isSuffixOf s

/-- Go `strings.TrimSuffix`. -/
def trimSfx (s suf : Str) : Str :=
  if hasSfx s suf then s.take (s.length - suf.length) else s

/-- Index of the first occurrence of `pat` in a string, if any (Swift
`range(of:)`). -/
def findSub (pat : Str) : Str → Option Nat
  | [] => if pat.isPrefixOf [] then some 0 else none
  | c :: rest =>
      if pat.isPrefixOf (c :: rest) then some 0
      else (findSub pat rest).map (· + 1)

/-- Substring occurrence test (Go `strings.Contains`, Swift `contains`). -/
def hasSub (s pat : Str) : Bool := (findSub pat s).isSome

theorem isPrefixOf_append_self (a b : Str) : a.isPrefixOf (a ++ b) = true := by
  induction a with
  | nil => simp [List.isPrefixOf]
  | cons c a ih => simp [List.isPrefixOf, ih]

theorem isSfxOf_append_self (a b : Str) : b.isSuffixOf (a ++ b) = true := by
  rw [List.isSuffixOf, List.reverse_append]
  exact isPrefixOf_append_self _ _

theorem trimSfx_append (u suf : Str) : trimSfx (u ++ suf) suf = u := by
  unfold trimSfx hasSfx
  rw [isSfxOf_append_self]
  have h : (u ++ suf).length - suf.length = u.length := by simp
  simp only [if_true, h]
  exact List.take_left u suf

theorem takeWhile_append_of_all {p : Char → Bool} {a : Str} (b : Str)
    (ha : ∀ c ∈ a, p c = true) :
    (a ++ b).takeWhile p = a ++ b.takeWhile p := by
  induction a with
  | nil => rfl
  | cons c a ih =>
    have hc : p c = true := ha c (by simp)
    simp only [List.cons_append, List.takeWhile_cons, hc, if_true]
    rw [ih (fun x hx => ha x (by simp [hx]))]

/-! ## The identity marker (EventKit / Google Calendar variants) -/

/-- The marker `shift-uid:` embedded into event notes/descriptions. -/
def marker : Str := "shift-uid:".toList

/-- Swift `extractShiftUID` (CalendarService.swift:250-259; the Google
variant at GoogleCalendarService.swift:177-186 is identical on the event
description): the text after the first marker occurrence, up to the first
newline. Absence of notes or marker yields `none` — no error is thrown. -/
def extractShiftUID (notes : Option Str) : Option Str :=
  match notes with
  | none => none
  | some ns =>
    match findSub marker ns with
    | none => none
    | some i => some ((ns.drop (i + marker.length)).takeWhile (fun c => c != '\n'))

/-- Notes of an event built by Swift `createEvent`
(CalendarService.swift:261-273): the marker and uid, then the memo on its
own line when non-empty. -/
def createNotes (uid memo : Str) : Str :=
  let ns := marker ++ uid
  if memo = [] then ns else ns ++ '\n' :: memo

theorem findSub_append_self (pat rest : Str) : findSub pat (pat ++ rest) = some 0 := by
  cases h : pat ++ rest with
  | nil => simp [findSub, List.append_eq_nil.1 h]
  | cons c cs =>
    rw [findSub]
    · rw [← h, isPrefixOf_append_self]
      rfl

theorem extract_createNotes {uid : Str} (memo : Str) (h : ∀ c ∈ uid, (c != '\n') = true) :
    extractShiftUID (some (createNotes uid memo)) = some uid := by
  unfold createNotes
  simp only [extractShiftUID]
  by_cases hm : memo = []
  · rw [if_pos hm, findSub_append_self]
    dsimp only
    rw [Nat.zero_add, List.drop_left]
    have htw := takeWhile_append_of_all (p := fun c => c != '\n') ([] : Str) h
    simp only [List.append_nil] at htw
    rw [htw]
    simp
  · rw [if_neg hm, List.append_assoc, findSub_append_self]
    dsimp only
    rw [Nat.zero_add, List.drop_left]
    rw [takeWhile_append_of_all _ h]
    simp [List.takeWhile_cons]

/-! ## Character-set facts about the identity string -/

theorem padNum_charset {w n : Nat} {c : Char} (hc : c ∈ padNum w n) :
    48 ≤ c.toNat ∧ c.toNat ≤ 57 := by
  induction w generalizing n with
  | zero => simp [padNum] at hc
  | succ w ih =>
    rw [padNum] at hc
    rcases List.mem_append.1 hc with h | h
    · exact ih h
    · simp only [List.mem_singleton] at h
      subst h
      rw [digitChar_toNat (Nat.mod_lt n (by norm_num))]
      omega

theorem natDigitsAux_charset {f n : Nat} {c : Char} (hc : c ∈ natDigitsAux f n) :
    48 ≤ c.toNat ∧ c.toNat ≤ 57 := by
  induction f generalizing n with
  | zero => simp [natDigitsAux] at hc
  | succ f ih =>
    rw [natDigitsAux] at hc
    by_cases h0 : n = 0
    · rw [if_pos h0] at hc; simp at hc
    · rw [if_neg h0] at hc
      rcases List.mem_append.1 hc with h | h
      · exact ih h
      · simp only [List.mem_singleton] at h
        subst h
        rw [digitChar_toNat (Nat.mod_lt n (by norm_num))]
        omega

theorem formatYear_charset {y : Nat} {c : Char} (hc : c ∈ formatYear y) :
    48 ≤ c.toNat ∧ c.toNat ≤ 57 := by
  unfold formatYear at hc
  by_cases h : y < 10000
  · rw [if_pos h] at hc; exact padNum_charset hc
  · rw [if_neg h] at hc; exact natDigitsAux_charset hc

theorem dateStamp_charset {t : Int} {c : Char} (hc : c ∈ dateStamp t) :
    48 ≤ c.toNat ∧ c.toNat ≤ 57 := by
  unfold dateStamp at hc
  rcases List.mem_append.1 hc with h | h
  · rcases List.mem_append.1 h with h2 | h2
    · exact formatYear_charset h2
    · exact padNum_charset h2
  · exact padNum_charset h

theorem timeStamp_charset {t : Int} {c : Char} (hc : c ∈ timeStamp t) :
    48 ≤ c.toNat ∧ c.toNat ≤ 57 := by
  unfold timeStamp at hc
  rcases List.mem_append.1 hc with h | h
  · exact padNum_charset h
  · exact padNum_charset h

theorem hexDigitChar_charset {d : Nat} (h : d < 16) :
    (48 ≤ (hexDigitChar d).toNat ∧ (hexDigitChar d).toNat ≤ 57) ∨
      (97 ≤ (hexDigitChar d).toNat ∧ (hexDigitChar d).toNat ≤ 102) := by
  interval_cases d <;> decide

theorem beBytes_lt {k n : Nat} {x : Nat} (hx : x ∈ beBytes k n) : x < 256 := by
  induction k generalizing n with
  | zero => simp [beBytes] at hx
  | succ k ih =>
    rw [beBytes] at hx
    rcases List.mem_cons.1 hx with h | h
    · subst h; exact Nat.mod_lt _ (by norm_num)
    · exact ih h

theorem sha1_bytes_lt {msg : List Nat} {x : Nat} (hx : x ∈ sha1 msg) : x < 256 := by
  unfold sha1 at hx
  simp only [List.mem_append] at hx
  rcases hx with ((((h | h) | h) | h) | h) <;> exact beBytes_lt h

theorem hexEncode_charset {bs : List Nat} (hb : ∀ b ∈ bs, b < 256) {c : Char}
    (hc : c ∈ hexEncode bs) :
    (48 ≤ c.toNat ∧ c.toNat ≤ 57) ∨ (97 ≤ c.toNat ∧ c.toNat ≤ 102) := by
  unfold hexEncode at hc
  obtain ⟨l, hl, hcl⟩ := List.mem_flatten.1 hc
  obtain ⟨b, hbmem, rfl⟩ := List.mem_map.1 hl
  have hblt := hb b hbmem
  rcases List.mem_cons.1 hcl with h | h
  · subst h; exact hexDigitChar_charset (by omega)
  · simp only [List.mem_singleton] at h
    subst h
    exact hexDigitChar_charset (Nat.mod_lt _ (by norm_num))

theorem shiftUIDHash_charset {s e : Int} {l : Str} {c : Char}
    (hc : c ∈ shiftUIDHash s e l) :
    (48 ≤ c.toNat ∧ c.toNat ≤ 57) ∨ (97 ≤ c.toNat ∧ c.toNat ≤ 102) :=
  hexEncode_charset (fun _ hb => sha1_bytes_lt hb) (List.take_subset _ _ hc)

theorem shiftPfx_charset : ∀ c ∈ "shift-".toList, c ≠ '\n' ∧ c ≠ '/' := by decide

/-- Every character of an identity string is a digit, a lower-case hex
letter, a dash, or a letter of the literal prefix; in particular the
identity never contains a newline or a slash. -/
theorem shiftUIDCore_no_newline_slash {s e : Int} {l : Str} {c : Char}
    (hc : c ∈ shiftUIDCore s e l) : c ≠ '\n' ∧ c ≠ '/' := by
  have hten : ('\n').toNat = 10 := by decide
  have hslash : ('/').toNat = 47 := by decide
  unfold shiftUIDCore at hc
  rcases List.mem_append.1 hc with h | h
  · rcases List.mem_append.1 h with h | h
    · rcases List.mem_append.1 h with h | h
      · rcases List.mem_append.1 h with h | h
        · rcases List.mem_append.1 h with h | h
          · rcases List.mem_append.1 h with h | h
            · rcases List.mem_append.1 h with h | h
              · exact shiftPfx_charset c h
              · have := dateStamp_charset h
                constructor <;> rintro rfl <;> omega
            · simp only [List.mem_singleton] at h; subst h; decide
          · have := timeStamp_charset h
            constructor <;> rintro rfl <;> omega
        · simp only [List.mem_singleton] at h; subst h; decide
      · have := timeStamp_charset h
        constructor <;> rintro rfl <;> omega
    · simp only [List.mem_singleton] at h; subst h; decide
  · rcases shiftUIDHash_charset h with hr | hr <;>
      constructor <;> rintro rfl <;> omega

/-! ## Claim C8 -/

/-- Claim C8: the identity-marker embedding round-trips losslessly — for
every newline-free identity (every generated identity is newline-free, last
conjunct), extraction from notes built by `createEvent` returns exactly that
identity, with or without an appended memo; and extraction from an event
without the marker, or without notes, returns `none` rather than failing. -/
theorem identity_marker_roundtrip :
    (∀ uid memo : Str, ('\n' ∉ uid) →
      extractShiftUID (some (createNotes uid memo)) = some uid) ∧
    (∀ ns : Str, hasSub ns marker = false → extractShiftUID (some ns) = none) ∧
    extractShiftUID none = none ∧
    (∀ (start stop : Int) (l : Str), '\n' ∉ shiftUIDCore start stop l) := by
  refine ⟨?_, ?_, rfl, ?_⟩
  · intro uid memo hn
    refine extract_createNotes memo (fun c hcm => ?_)
    have : c ≠ '\n' := fun h => hn (h ▸ hcm)
    simpa using this
  · intro ns h
    simp only [extractShiftUID]
    unfold hasSub at h
    cases hf : findSub marker ns with
    | none => rfl
    | some i => rw [hf] at h; simp at h
  · intro start stop l hmem
    exact (shiftUIDCore_no_newline_slash hmem).1 rfl

/-- Witness for the C8 theorem: a concrete identity with a non-empty memo
round-trips, and a concrete foreign note yields no identity. -/
theorem identity_marker_roundtrip_witness :
    extractShiftUID (some (createNotes "shift-20260115-1000-1800-1f902bac".toList
        "bring keys".toList)) = some "shift-20260115-1000-1800-1f902bac".toList ∧
      extractShiftUID (some "a completely foreign event".toList) = none :=
  ⟨identity_marker_roundtrip.1 _ _ (by decide),
    identity_marker_roundtrip.2.1 _ (by decide)⟩

/-! ## Claim C10 -/

/-- Go `path.Base` (as exercised on event hrefs): drop trailing slashes,
then keep the segment after the last remaining slash. -/
def pathBase (p : Str) : Str :=
  if p = [] then ['.']
  else if p.reverse.dropWhile (fun c => c == '/') = [] then ['/']
  else ((p.reverse.dropWhile (fun c => c == '/')).takeWhile (fun c => c != '/')).reverse

/-- The managed-resource filter of `listShiftEventUIDs` (main.go:1012-1015):
a resource is managed iff its filename starts with `shift-` and ends with
`.ics`. -/
def isShiftResource (name : Str) : Bool :=
  hasPfx name "shift-".toList && hasSfx name ".ics".toList

/-- The uid recovered from a managed filename (main.go:1015). -/
def resourceUID (name : Str) : Str := trimSfx name ".ics".toList

/-- The filename under which `syncShiftsToCalDAV` PUTs an event
(main.go:1123: `<base>/<uid>.ics`). -/
def eventFileName (uid : Str) : Str := uid ++ ".ics".toList

theorem shiftUIDCore_pfx (s e : Int) (l : Str) :
    shiftUIDCore s e l = "shift-".toList ++
      (dateStamp s ++ ['-'] ++ timeStamp s ++ ['-'] ++ timeStamp e ++ ['-'] ++
        shiftUIDHash s e l) := by
  simp [shiftUIDCore, List.append_assoc]

/-- Claim C10: every identity the Go sync generates starts with `shift-`;
the event is stored at `<uid>.ics`, whose `path.Base` over any href prefix
is the filename itself; that filename passes the managed-resource filter of
`listShiftEventUIDs`; and trimming `.ics` recovers exactly the uid — so an
event created in one run is recognised as managed, with the same uid, by a
later run's listing. -/
theorem created_events_recognized_as_managed (s : shift) (base : Str) :
    hasPfx (makeShiftUID s) "shift-".toList = true ∧
    pathBase (base ++ '/' :: eventFileName (makeShiftUID s)) =
      eventFileName (makeShiftUID s) ∧
    isShiftResource (eventFileName (makeShiftUID s)) = true ∧
    resourceUID (eventFileName (makeShiftUID s)) = makeShiftUID s := by
  have huid := shiftUIDCore_pfx s.Start s.End s.Location
  have hics : ∀ c ∈ (".ics".toList : Str), (c != '/') = true := by decide
  have hnoslash : ∀ c ∈ eventFileName (makeShiftUID s), (c != '/') = true := by
    intro c hcm
    rcases List.mem_append.1 hcm with h | h
    · have := (shiftUIDCore_no_newline_slash h).2
      simpa using this
    · exact hics c h
  refine ⟨?_, ?_, ?_, ?_⟩
  · unfold hasPfx makeShiftUID
    rw [huid]
    exact isPrefixOf_append_self _ _
  · have hrev : (base ++ '/' :: eventFileName (makeShiftUID s)).reverse =
        (eventFileName (makeShiftUID s)).reverse ++ '/' :: base.reverse := by
      simp
    have hfn : (eventFileName (makeShiftUID s)).reverse =
        's' :: (makeShiftUID s ++ ['.', 'i', 'c']).reverse := by
      show (makeShiftUID s ++ ('.' :: 'i' :: 'c' :: 's' :: [])).reverse = _
      have hsplit : makeShiftUID s ++ ('.' :: 'i' :: 'c' :: 's' :: []) =
          (makeShiftUID s ++ ['.', 'i', 'c']) ++ ['s'] := by simp
      rw [hsplit, List.reverse_append]
      rfl
    have hdrop : (base ++ '/' :: eventFileName (makeShiftUID s)).reverse.dropWhile
        (fun c => c == '/') = (base ++ '/' :: eventFileName (makeShiftUID s)).reverse := by
      rw [hrev, hfn, List.cons_append, List.dropWhile_cons]
      rw [if_neg (by decide)]
    unfold pathBase
    rw [if_neg (by simp), hdrop]
    rw [if_neg (by rw [hrev, hfn]; simp), hrev]
    rw [takeWhile_append_of_all _ (fun c hcm => hnoslash c (List.mem_reverse.1 hcm))]
    rw [List.takeWhile_cons]
    rw [if_neg (by decide)]
    simp
  · unfold isShiftResource
    rw [Bool.and_eq_true]
    constructor
    · unfold hasPfx eventFileName makeShiftUID
      rw [huid, List.append_assoc]
      exact isPrefixOf_append_self _ _
    · exact isSfxOf_append_self _ _
  · exact trimSfx_append _ _

/-- Witness for the C10 theorem at a concrete shift and href prefix. -/
theorem created_events_recognized_as_managed_witness :
    isShiftResource (eventFileName (makeShiftUID
      ⟨"x".toList, 29474520, 29475000, "StoreA".toList, []⟩)) = true :=
  (created_events_recognized_as_managed
    ⟨"x".toList, 29474520, 29475000, "StoreA".toList, []⟩
    "/calendars/user/cal".toList).2.2.1

/-! ## The Go CalDAV sync (`syncShiftsToCalDAV`, main.go:1058-1148) -/

/-- One desired entry of the Go sync (`shiftEntry`, main.go:1065-1068). -/
structure shiftEntry where
  UID : Str
  Shift : shift
  deriving DecidableEq, Repr

/-- The desired-set deduplication of `syncShiftsToCalDAV`
(main.go:1070-1082): skip zero-length shifts, derive the uid, and keep only
the first occurrence of each uid (`seen` is the uids already taken). -/
def buildDesired : List shift → List Str → List shiftEntry
  | [], _ => []
  | s :: rest, seen =>
      if s.Start = s.End then buildDesired rest seen
      else
        if makeShiftUID s ∈ seen then buildDesired rest seen
        else ⟨makeShiftUID s, s⟩ :: buildDesired rest (makeShiftUID s :: seen)

/-- Outcome of one CalDAV request, as distinguished by the Go loops. -/
inductive ItemOutcome where
  | reqError : ItemOutcome
  | httpError : ItemOutcome
  | status : Nat → ItemOutcome
  deriving DecidableEq, Repr

/-- Trace of one Go CalDAV sync run: every attempted DELETE and PUT with
its outcome, in order. -/
structure CalDAVRun where
  deleteAttempts : List (Str × ItemOutcome)
  putAttempts : List (Str × ItemOutcome)
  deriving DecidableEq, Repr

/-- The DELETE loop (main.go:1097-1119): each planned uid is attempted; a
request error, transport error or bad status is only logged, and the loop
always advances to the next item. -/
def runDeleteLoop (orc : Str → ItemOutcome) : List Str → List (Str × ItemOutcome)
  | [] => []
  | uid :: rest => (uid, orc uid) :: runDeleteLoop orc rest

/-- The PUT loop (main.go:1121-1146), with the same logging-only handling
of per-item failures. -/
def runPutLoop (orc : Str → ItemOutcome) : List shiftEntry → List (Str × ItemOutcome)
  | [] => []
  | e :: rest => (e.UID, orc e.UID) :: runPutLoop orc rest

/-- Go `syncShiftsToCalDAV` (main.go:1058-1148). The HTTP transport is
abstracted by `listResult` — the outcome of `listShiftEventUIDs` — and by
one outcome oracle per loop; the control flow follows the source: reject a
non-`http` calendar URL, deduplicate the desired set first-seen by uid,
replace a failed listing by the empty set after logging it
(main.go:1084-1088), plan deletes as the existing uids not desired — with
no reference to event times — then attempt every delete and every PUT. -/
def syncShiftsToCalDAV (shifts : List shift) (calendarURL : Str)
    (listResult : Except Str (List Str))
    (delOrc putOrc : Str → ItemOutcome) : Except Str CalDAVRun :=
  if hasPfx calendarURL "http".toList = false then
    .error ("calendar_url is invalid: ".toList ++ calendarURL)
  else
    let desired := buildDesired shifts []
    let existingUIDs : List Str :=
      match listResult with
      | .error _ => []
      | .ok uids => uids
    let toDelete := existingUIDs.filter (fun uid => !((desired.map (·.UID)).contains uid))
    .ok ⟨runDeleteLoop delOrc toDelete, runPutLoop putOrc desired⟩

theorem runDeleteLoop_fst (orc : Str → ItemOutcome) (l : List Str) :
    (runDeleteLoop orc l).map Prod.fst = l := by
  induction l with
  | nil => rfl
  | cons uid rest ih => simp [runDeleteLoop, ih]

theorem runPutLoop_fst (orc : Str → ItemOutcome) (l : List shiftEntry) :
    (runPutLoop orc l).map Prod.fst = l.map (·.UID) := by
  induction l with
  | nil => rfl
  | cons e rest ih => simp [runPutLoop, ih]

theorem buildDesired_nodup (shifts : List shift) (seen : List Str) :
    ((buildDesired shifts seen).map (·.UID)).Nodup ∧
      ∀ u ∈ (buildDesired shifts seen).map (·.UID), u ∉ seen := by
  induction shifts generalizing seen with
  | nil => simp [buildDesired]
  | cons s rest ih =>
    rw [buildDesired]
    by_cases hz : s.Start = s.End
    · rw [if_pos hz]; exact ih seen
    · rw [if_neg hz]
      by_cases hm : makeShiftUID s ∈ seen
      · rw [if_pos hm]; exact ih seen
      · rw [if_neg hm]
        obtain ⟨hnd, hdisj⟩ := ih (makeShiftUID s :: seen)
        refine ⟨?_, ?_⟩
        · simp only [List.map_cons, List.nodup_cons]
          exact ⟨fun hmem => hdisj _ hmem (by simp), hnd⟩
        · intro u hu
          simp only [List.map_cons, List.mem_cons] at hu
          rcases hu with rfl | hu
          · exact hm
          · intro huseen
            exact hdisj u hu (by simp [huseen])

theorem buildDesired_mem (shifts : List shift) (seen : List Str) :
    ∀ e ∈ buildDesired shifts seen, e.UID = makeShiftUID e.Shift ∧ e.Shift ∈ shifts := by
  induction shifts generalizing seen with
  | nil => simp [buildDesired]
  | cons s rest ih =>
    intro e he
    rw [buildDesired] at he
    by_cases hz : s.Start = s.End
    · rw [if_pos hz] at he
      obtain ⟨h1, h2⟩ := ih seen e he
      exact ⟨h1, by simp [h2]⟩
    · rw [if_neg hz] at he
      by_cases hm : makeShiftUID s ∈ seen
      · rw [if_pos hm] at he
        obtain ⟨h1, h2⟩ := ih seen e he
        exact ⟨h1, by simp [h2]⟩
      · rw [if_neg hm] at he
        rcases List.mem_cons.1 he with rfl | he2
        · exact ⟨rfl, by simp⟩
        · obtain ⟨h1, h2⟩ := ih _ e he2
          exact ⟨h1, by simp [h2]⟩

/-! ## Claim C3 -/

/-- Claim C3 counterexample: when the listing of existing events fails, the
Go run does not abort — it plans against an assumed-empty existing set,
issues the PUT for the desired shift, and returns success, surfacing no
error. -/
theorem go_sync_list_failure_proceeds :
    syncShiftsToCalDAV [⟨"x".toList, 29474520, 29475000, "StoreA".toList, []⟩]
        "https://caldav.example/cal".toList (.error "boom".toList)
        (fun _ => .status 204) (fun _ => .status 201) =
      .ok ⟨[], [(makeShiftUID ⟨"x".toList, 29474520, 29475000, "StoreA".toList, []⟩,
        .status 201)]⟩ := by
  rfl

/-- Claim C3 (amended): when listing the existing managed events fails, the
Go CalDAV run logs the error and continues against an empty existing set:
it plans no deletions (so no delete is issued against unknown state), PUTs
every deduplicated desired shift, and returns success — the error is not
surfaced and the run is not aborted. -/
theorem go_sync_list_failure_behavior (shifts : List shift) (url err : Str)
    (delOrc putOrc : Str → ItemOutcome)
    (hurl : hasPfx url "http".toList = true) :
    syncShiftsToCalDAV shifts url (.error err) delOrc putOrc =
      .ok ⟨[], runPutLoop putOrc (buildDesired shifts [])⟩ := by
  unfold syncShiftsToCalDAV
  rw [hurl]
  simp [runDeleteLoop]

/-- Witness for the amended C3 theorem at concrete inputs. -/
theorem go_sync_list_failure_behavior_witness :
    syncShiftsToCalDAV [] "https://caldav.example/cal".toList
        (.error "boom".toList) (fun _ => .status 204) (fun _ => .status 201) =
      .ok ⟨[], []⟩ :=
  go_sync_list_failure_behavior [] "https://caldav.example/cal".toList
    "boom".toList (fun _ => .status 204) (fun _ => .status 201) (by decide)

/-! ## Claim C2 (Go side) -/

/-- Claim C2 counterexample: the Go implementation protects nothing by
time. The existing store holds the managed event of the shift
2026-01-10 09:00-17:00 at StoreA, which ended (instant 29467740) strictly
before the scenario clock 2026-01-15 12:00 (instant 29474640); its identity
is absent from the empty desired set, and the run places it in the delete
set and issues the DELETE. -/
theorem go_sync_deletes_past_event :
    (29467740 : Int) < 29474640 ∧
    syncShiftsToCalDAV []
        "https://caldav.example/cal".toList
        (.ok [makeShiftUID ⟨"バイト".toList, 29467260, 29467740, "StoreA".toList, []⟩])
        (fun _ => .status 204) (fun _ => .status 201) =
      .ok ⟨[(makeShiftUID ⟨"バイト".toList, 29467260, 29467740, "StoreA".toList, []⟩,
        .status 204)], []⟩ := by
  exact ⟨by decide, by rfl⟩

/-! ## Claim C4 (Go side: the amended behaviour) -/

/-- Claim C4 (amended): in the Go CalDAV implementation per-item failures
are logged and never stop the run: for every outcome oracle — including
oracles failing every request — the run returns success, its delete trace
attempts exactly the planned deletions and its put trace attempts exactly
the deduplicated desired entries, in order. (The EventKit and Google
implementations instead abort the whole run on the first throwing store
call; see the claim's counterexample.) -/
theorem go_sync_per_item_failures_do_not_stop_run (shifts : List shift)
    (url : Str) (existing : List Str) (delOrc putOrc : Str → ItemOutcome)
    (hurl : hasPfx url "http".toList = true) :
    syncShiftsToCalDAV shifts url (.ok existing) delOrc putOrc =
      .ok ⟨runDeleteLoop delOrc (existing.filter
          (fun uid => !(((buildDesired shifts []).map (·.UID)).contains uid))),
        runPutLoop putOrc (buildDesired shifts [])⟩ ∧
    (runDeleteLoop delOrc (existing.filter
        (fun uid => !(((buildDesired shifts []).map (·.UID)).contains uid)))).map Prod.fst =
      existing.filter (fun uid => !(((buildDesired shifts []).map (·.UID)).contains uid)) ∧
    (runPutLoop putOrc (buildDesired shifts [])).map Prod.fst =
      (buildDesired shifts []).map (·.UID) := by
  refine ⟨?_, runDeleteLoop_fst _ _, runPutLoop_fst _ _⟩
  unfold syncShiftsToCalDAV
  rw [hurl]
  simp

/-- Witness for the amended C4 theorem with an all-failing oracle. -/
theorem go_sync_per_item_failures_do_not_stop_run_witness :
    syncShiftsToCalDAV [⟨"x".toList, 29474520, 29475000, "StoreA".toList, []⟩]
        "https://caldav.example/cal".toList (.ok ["shift-gone".toList])
        (fun _ => .httpError) (fun _ => .httpError) =
      .ok ⟨[("shift-gone".toList, .httpError)],
        [(makeShiftUID ⟨"x".toList, 29474520, 29475000, "StoreA".toList, []⟩,
          .httpError)]⟩ :=
  (go_sync_per_item_failures_do_not_stop_run
    [⟨"x".toList, 29474520, 29475000, "StoreA".toList, []⟩]
    "https://caldav.example/cal".toList ["shift-gone".toList]
    (fun _ => .httpError) (fun _ => .httpError) (by decide)).1

/-! ## Claim C7 (Go side: the amended behaviour) -/

/-- Claim C7 (amended): in the Go CalDAV implementation two desired records
with identical (start, end, location) collapse to one identity, the
duplicate is dropped first-seen from the desired set before planning, and
the run PUTs at most one event per identity: the put trace's uids are
exactly the deduplicated desired uids, without duplicates. (The EventKit
implementation performs no desired-set deduplication and saves one event
per duplicated row in a single run; see the claim's counterexample.) -/
theorem go_desired_dedup_one_write_per_identity (shifts : List shift)
    (url : Str) (existing : List Str) (delOrc putOrc : Str → ItemOutcome)
    (r : CalDAVRun) (hurl : hasPfx url "http".toList = true)
    (hrun : syncShiftsToCalDAV shifts url (.ok existing) delOrc putOrc = .ok r) :
    (∀ s1 s2 : shift, s1.Start = s2.Start → s1.End = s2.End →
      s1.Location = s2.Location → makeShiftUID s1 = makeShiftUID s2) ∧
    ((buildDesired shifts []).map (·.UID)).Nodup ∧
    (∀ e ∈ buildDesired shifts [], e.UID = makeShiftUID e.Shift ∧ e.Shift ∈ shifts) ∧
    (r.putAttempts.map Prod.fst).Nodup := by
  have hput : r.putAttempts = runPutLoop putOrc (buildDesired shifts []) := by
    unfold syncShiftsToCalDAV at hrun
    rw [hurl, if_neg (by simp : ¬(true = false))] at hrun
    simp only [Except.ok.injEq] at hrun
    subst hrun
    rfl
  refine ⟨?_, (buildDesired_nodup shifts []).1, buildDesired_mem shifts [], ?_⟩
  · intro s1 s2 h1 h2 h3
    simp [makeShiftUID, h1, h2, h3]
  · rw [hput, runPutLoop_fst]
    exact (buildDesired_nodup shifts []).1

/-- Witness for the amended C7 theorem: duplicated identical rows produce a
single PUT. -/
theorem go_desired_dedup_one_write_per_identity_witness :
    (([makeShiftUID ⟨"x".toList, 29474520, 29475000, "StoreA".toList, []⟩] :
      List Str)).Nodup :=
  have h := go_desired_dedup_one_write_per_identity
    [⟨"x".toList, 29474520, 29475000, "StoreA".toList, []⟩,
     ⟨"x".toList, 29474520, 29475000, "StoreA".toList, []⟩]
    "https://caldav.example/cal".toList [] (fun _ => .status 204)
    (fun _ => .status 201) _ (by decide) rfl
  h.2.2.2

/-! ## The shift-page row parser (`parseShifts`, main.go:740-815) -/

/-- ASCII whitespace test (the whitespace the modelled rows exercise). -/
def isSpaceChar (c : Char) : Bool := c == ' ' || c == '\t' || c == '\n' || c == '\r'

/-- Go `strings.TrimSpace`. -/
def trimSpace (s : Str) : Str :=
  ((s.dropWhile isSpaceChar).reverse.dropWhile isSpaceChar).reverse

/-- Split at the first occurrence of a separator character, when present:
the two fields produced by Go `strings.SplitN(s, sep, 2)` when `sep`
occurs. -/
def breakAt (sep : Char) : Str → Option (Str × Str)
  | [] => none
  | c :: rest =>
      if c = sep then some ([], rest)
      else (breakAt sep rest).map (fun p => (c :: p.1, p.2))

/-- The field before the first occurrence of a separator
(`strings.SplitN(s, sep, 2)[0]`). -/
def beforeChar (sep : Char) (s : Str) : Str :=
  match breakAt sep s with
  | none => s
  | some p => p.1

/-- One-character `strings.Contains`. -/
def hasChar (s : Str) (c : Char) : Bool := s.contains c

/-- Go `strings.Split` on one separator character. -/
def splitAll (sep : Char) : Str → List Str
  | [] => [[]]
  | c :: rest =>
      if c = sep then [] :: splitAll sep rest
      else
        match splitAll sep rest with
        | [] => [[c]]
        | h :: t => (c :: h) :: t

/-- Decimal reading of a non-empty all-digit string, else `none`. -/
def digitsVal (s : Str) : Option Nat :=
  if s = [] then none
  else if s.all (fun c => 48 ≤ c.toNat && c.toNat ≤ 57) then some (decodeNum s)
  else none

/-- Go `strconv.Atoi` on the inputs the rows exercise: optional sign and
decimal digits (64-bit overflow is not modelled — the parsed fields are
month, day, hour and minute numerals). -/
def atoi (s : Str) : Option Int :=
  match s with
  | '+' :: rest => (digitsVal rest).map Int.ofNat
  | '-' :: rest => (digitsVal rest).map (fun n => -(n : Int))
  | _ => (digitsVal s).map Int.ofNat

/-- Go `combineDateTime` (main.go:828-839): `hh:mm` must split into exactly
two numeric fields; the instant is built by `time.Date`, which normalises
out-of-range fields. -/
def combineDateTime (year month day : Int) (hhmm : Str) : Option Int :=
  match splitAll ':' hhmm with
  | [h, m] =>
      match atoi h, atoi m with
      | some hour, some minute => some (goDate year month day hour minute)
      | _, _ => none
  | _ => none

/-- One row of the shift table as consumed by `parseShifts`
(main.go:762-812): `none` when the row is skipped, otherwise the emitted
record. The time cell must contain `●` and `-`; both times are combined
with the same (year, month, day); a row whose two instants are equal is
discarded; nothing else constrains their order. -/
def parseShiftRow (year : Int) (dateText0 shopText0 timeText0 : Str) : Option shift :=
  let dateText := trimSpace dateText0
  let shopText := trimSpace shopText0
  let timeText := trimSpace timeText0
  if dateText = [] ∨ shopText = [] ∨ timeText = [] then none
  else if ¬ (hasChar timeText '●' = true ∧ hasChar timeText '-' = true) then none
  else
    match breakAt '●' timeText with
    | none => none
    | some bp =>
      match breakAt '-' bp.2 with
      | none => none
      | some tp =>
        let startStr := trimSpace tp.1
        let endStr := trimSpace tp.2
        let dateMain := beforeChar '(' (beforeChar '\n' dateText)
        match breakAt '/' dateMain with
        | none => none
        | some dp =>
          match atoi (trimSpace dp.1), atoi (trimSpace dp.2) with
          | some m, some d =>
            match combineDateTime year m d startStr, combineDateTime year m d endStr with
            | some startDT, some endDT =>
                if startDT = endDT then none
                else some ⟨"バイト".toList, startDT, endDT, shopText, []⟩
            | _, _ => none
          | _, _ => none

/-! ## Claim C9 -/

/-- Claim C9 counterexample: the parser only discards rows whose two parsed
instants coincide. The overnight-looking row `●23:00-07:00` on 2026-01-15
parses both times on the same day and is emitted with its end (07:00,
instant 29474340) strictly before its start (23:00, instant 29475300). -/
theorem parser_emits_end_before_start :
    parseShiftRow 2026 "1/15(木)".toList "StoreA".toList "●23:00-07:00".toList =
      some ⟨"バイト".toList, 29475300, 29474340, "StoreA".toList, []⟩ ∧
    (29474340 : Int) < 29475300 := by
  exact ⟨by decide, by decide⟩

/-- Claim C9 (amended): every record the parser emits satisfies
start ≠ end — rows whose parsed start equals their parsed end are discarded
as parse artifacts — but the strict invariant start < end does not hold:
a same-day parse of an overnight range emits a record with end before
start. -/
theorem parser_start_ne_end (year : Int) (dt st tt : Str) (sh : shift)
    (h : parseShiftRow year dt st tt = some sh) : sh.Start ≠ sh.End := by
  rw [parseShiftRow] at h
  dsimp only at h
  repeat' split at h
  all_goals try exact Option.noConfusion h
  rename_i hne
  cases Option.some.inj h
  simpa using hne

/-- Witness for the amended C9 theorem on an ordinary day shift row. -/
theorem parser_start_ne_end_witness : (29474520 : Int) ≠ 29475000 :=
  parser_start_ne_end 2026 "1/15(木)".toList "StoreA".toList
    "●10:00-18:00".toList
    ⟨"バイト".toList, 29474520, 29475000, "StoreA".toList, []⟩ (by decide)

/-! ## The EventKit store and `CalendarService` (CalendarService.swift)

Swift `EKEvent` objects are reference values; events here carry an `eid`
modelling the object identity, so that value equality coincides with Swift
reference identity (`===`), and the store is the list of events of the
searched calendar and window. The throwing `remove`/`save` calls are
driven by a failure oracle. -/

/-- Swift `Shift` (SyncLogEntry.swift:103-158); the Swift field `end` is a
Lean keyword and is embedded as `stop`. -/
structure Shift where
  uid : Str
  title : Str
  start : Int
  stop : Int
  location : Str
  memo : Str
  deriving DecidableEq, Repr

/-- Swift `Shift.makeUID` (SyncLogEntry.swift:114-138): the same derivation
as the Go `makeShiftUID`, kept byte-compatible on purpose. -/
def Shift.makeUID (start stop : Int) (location : Str) : Str :=
  shiftUIDCore start stop location

/-- An EventKit event as the sync reads and writes it. -/
structure EKEvent where
  eid : Nat
  title : Option Str
  startDate : Int
  endDate : Int
  location : Option Str
  notes : Option Str
  lastModified : Option Int
  deriving DecidableEq, Repr

/-- The searched calendar window's contents plus a fresh-object counter. -/
structure EKStore where
  events : List EKEvent
  nextEid : Nat
  deriving DecidableEq, Repr

instance : Nonempty EKEvent := ⟨⟨0, none, 0, 0, none, none, none⟩⟩

instance : Nonempty EKStore := ⟨⟨[], 0⟩⟩

/-- Swift `Date.distantPast` in minutes from 1970 (0001-01-01 00:00). -/
def distantPast : Int := -1035593280

/-- The throwing EventKit calls, keyed by object identity. -/
inductive EKOp where
  | removeOp : Nat → EKOp
  | saveOp : Nat → EKOp
  deriving DecidableEq, Repr

/-- A failure oracle: which throwing calls throw. -/
abbrev EKOracle := EKOp → Bool

/-- The all-succeeding oracle. -/
def orcNone : EKOracle := fun _ => false

/-- `eventStore.remove(event, span: .thisEvent)`: on success the object
leaves the calendar. -/
def ekRemove (orc : EKOracle) (e : EKEvent) (st : EKStore) : Except Str EKStore :=
  if orc (.removeOp e.eid) then .error "remove failed".toList
  else .ok ⟨st.events.filter (fun x => x.eid != e.eid), st.nextEid⟩

/-- Marker test on notes (`notes?.contains("shift-uid:") == true`). -/
def hasMarker (notes : Option Str) : Bool :=
  match notes with
  | none => false
  | some ns => hasSub ns marker

/-- `getExistingShiftEvents` (CalendarService.swift:178-189): the events of
the searched window carrying the marker. -/
def getExisting (st : EKStore) : List EKEvent :=
  st.events.filter (fun e => hasMarker e.notes)

/-- `eventQualityScore` (CalendarService.swift:242-248). -/
def eventQualityScore (e : EKEvent) : Nat :=
  (match e.title with | some t => if t ≠ [] then 1 else 0 | none => 0) +
  (match e.location with | some l => if l ≠ [] then 1 else 0 | none => 0) +
  (if e.startDate < e.endDate then 1 else 0)

/-- The modification key `lastModifiedDate ?? .distantPast`. -/
def modKey (e : EKEvent) : Int := e.lastModified.getD distantPast

/-- `preferredEvent` (CalendarService.swift:226-240). -/
def preferredEvent (lhs rhs : EKEvent) : EKEvent :=
  if modKey lhs ≠ modKey rhs then (if modKey lhs > modKey rhs then lhs else rhs)
  else
    if eventQualityScore lhs ≠ eventQualityScore rhs then
      (if eventQualityScore lhs ≥ eventQualityScore rhs then lhs else rhs)
    else (if lhs.startDate ≤ rhs.startDate then lhs else rhs)

/-- Dictionary lookup of the dedup selection (insertion-ordered
association list). -/
def lookupSel (sel : List (Str × EKEvent)) (uid : Str) : Option EKEvent :=
  match sel.find? (fun p => p.1 == uid) with
  | none => none
  | some p => some p.2

/-- Dictionary update in place (`selectedByUID[uid] = preferred`). -/
def updateSel (sel : List (Str × EKEvent)) (uid : Str) (e : EKEvent) :
    List (Str × EKEvent) :=
  sel.map (fun p => if p.1 = uid then (uid, e) else p)

/-- The selection loop of `deduplicateShiftEvents`
(CalendarService.swift:205-216): returns the final dictionary in
first-insertion order and the duplicates to delete, in iteration order. -/
def dedupScan : List EKEvent → List (Str × EKEvent) →
    List (Str × EKEvent) × List EKEvent
  | [], sel => (sel, [])
  | e :: rest, sel =>
      match extractShiftUID e.notes with
      | none => dedupScan rest sel
      | some uid =>
          match lookupSel sel uid with
          | none => dedupScan rest (sel ++ [(uid, e)])
          | some ex =>
              let pref := preferredEvent ex e
              let obsolete := if pref = ex then e else ex
              let res := dedupScan rest (updateSel sel uid pref)
              (res.1, obsolete :: res.2)

/-- Stable insertion into a start-sorted list. -/
def insertByStart (e : EKEvent) : List EKEvent → List EKEvent
  | [] => [e]
  | x :: xs => if e.startDate ≤ x.startDate then e :: x :: xs else x :: insertByStart e xs

/-- The closing `sorted { $0.startDate < $1.startDate }` of the kept events
(Swift's sort leaves tie order unspecified; insertion sort is one
admissible refinement). -/
def sortByStart : List EKEvent → List EKEvent
  | [] => []
  | x :: xs => insertByStart x (sortByStart xs)

/-- Sequential removal of the duplicate events; the first throw aborts. -/
def ekRemoveAll (orc : EKOracle) : List EKEvent → EKStore → Except Str EKStore
  | [], st => .ok st
  | e :: rest, st =>
      match ekRemove orc e st with
      | .error m => .error m
      | .ok st2 => ekRemoveAll orc rest st2

/-- `deduplicateShiftEvents` (CalendarService.swift:201-223). -/
def deduplicateShiftEvents (orc : EKOracle) (evs : List EKEvent) (st : EKStore) :
    Except Str (List EKEvent × EKStore) :=
  match ekRemoveAll orc (dedupScan evs []).2 st with
  | .error m => .error m
  | .ok st2 => .ok (sortByStart ((dedupScan evs []).1.map (·.2)), st2)

/-- Swift `SyncResult` (CalendarService.swift:283-289). -/
structure SyncResult where
  added : Nat
  updated : Nat
  deleted : Nat
  addedShifts : List Shift
  updatedShifts : List Shift
  deletedShifts : List Shift
  deriving DecidableEq, Repr

/-- The zero-initialised `SyncResult()`. -/
def SyncResult.empty : SyncResult := ⟨0, 0, 0, [], [], []⟩

/-- `needsUpdate` (CalendarService.swift:162-169): title, start, end and
location are compared — notes (and so memo and uid) are not. -/
def needsUpdate (e : EKEvent) (s : Shift) : Bool :=
  e.title != some s.title || e.startDate != s.start || e.endDate != s.stop ||
    e.location != some s.location

/-- `createEvent` (CalendarService.swift:261-273); `eid` is the fresh
object identity; EventKit has not yet stamped a modification date. -/
def createEventFor (s : Shift) (eid : Nat) : EKEvent :=
  ⟨eid, some s.title, s.start, s.stop, some s.location,
    some (createNotes s.uid s.memo), none⟩

/-- `updateEvent` (CalendarService.swift:275-280): notes — hence the
embedded uid — are preserved. -/
def updateEvent (e : EKEvent) (s : Shift) : EKEvent :=
  { e with title := some s.title, startDate := s.start, endDate := s.stop,
           location := some s.location }

/-- The delete-set filter of `syncShifts` (CalendarService.swift:90-96):
only events that carry a uid, have not ended before `now`, and whose uid is
not desired. -/
def ekToDelete (existing : List EKEvent) (desiredUIDs : List Str) (now : Int) :
    List EKEvent :=
  existing.filter (fun e =>
    match extractShiftUID e.notes with
    | none => false
    | some uid =>
        if e.endDate < now then false
        else !(desiredUIDs.contains uid))

/-- The delete loop (CalendarService.swift:98-113): record the deleted
shift, remove the event — a throw aborts the whole run, losing the partial
result — then count. -/
def ekDeleteLoop (orc : EKOracle) : List EKEvent → EKStore → SyncResult →
    Except Str (EKStore × SyncResult)
  | [], st, r => .ok (st, r)
  | e :: rest, st, r =>
      let r1 :=
        match extractShiftUID e.notes with
        | some uid =>
            { r with deletedShifts := r.deletedShifts ++
                       [(⟨uid, e.title.getD [], e.startDate, e.endDate,
                         e.location.getD [], []⟩ : Shift)] }
        | none => r
      match ekRemove orc e st with
      | .error m => .error m
      | .ok st2 => ekDeleteLoop orc rest st2 { r1 with deleted := r1.deleted + 1 }

/-- Replace the event object `e` (by identity) wherever it is referenced. -/
def replaceEvent (l : List EKEvent) (e : EKEvent) : List EKEvent :=
  l.map (fun x => if x.eid = e.eid then e else x)

/-- The create/update loop (CalendarService.swift:115-135). `snapshot` is
the deduplicated existing-event list whose objects the loop looks up;
updating mutates the object, hence both the snapshot and the store;
`existingUIDs` is computed before the loop and never refreshed, exactly as
in the source. A throwing save aborts the run. -/
def ekApplyLoop (orc : EKOracle) : List Shift → List EKEvent → List Str →
    EKStore → SyncResult → Except Str (EKStore × SyncResult)
  | [], _, _, st, r => .ok (st, r)
  | s :: rest, snapshot, existingUIDs, st, r =>
      if existingUIDs.contains s.uid then
        match snapshot.find? (fun e => extractShiftUID e.notes == some s.uid) with
        | some ev =>
            if needsUpdate ev s then
              if orc (.saveOp ev.eid) then .error "save failed".toList
              else
                ekApplyLoop orc rest (replaceEvent snapshot (updateEvent ev s))
                  existingUIDs ⟨replaceEvent st.events (updateEvent ev s), st.nextEid⟩
                  { r with updated := r.updated + 1,
                           updatedShifts := r.updatedShifts ++ [s] }
            else ekApplyLoop orc rest snapshot existingUIDs st r
        | none => ekApplyLoop orc rest snapshot existingUIDs st r
      else
        if orc (.saveOp st.nextEid) then .error "save failed".toList
        else
          ekApplyLoop orc rest snapshot existingUIDs
            ⟨st.events ++ [createEventFor s st.nextEid], st.nextEid + 1⟩
            { r with added := r.added + 1,
                     addedShifts := r.addedShifts ++ [s] }

/-- Swift `syncShifts` (CalendarService.swift:76-143) under the failure
oracle: initial dedup of the existing managed events, the delete pass, the
create/update pass, and the closing self-heal dedup. -/
def ekSyncShifts (orc : EKOracle) (shifts : List Shift) (st : EKStore)
    (now : Int) : Except Str (SyncResult × EKStore) :=
  match deduplicateShiftEvents orc (getExisting st) st with
  | .error m => .error m
  | .ok (existingEvents, st1) =>
    match ekDeleteLoop orc
        (ekToDelete existingEvents (shifts.map (·.uid)) now) st1 SyncResult.empty with
    | .error m => .error m
    | .ok (st2, r1) =>
      match ekApplyLoop orc shifts existingEvents
          (existingEvents.filterMap (fun e => extractShiftUID e.notes)) st2 r1 with
      | .error m => .error m
      | .ok (st3, r2) =>
        match deduplicateShiftEvents orc (getExisting st3) st3 with
        | .error m => .error m
        | .ok (_, st4) => .ok (r2, st4)

/-! ## Claim C4, counterexample (EventKit side) -/

/-- Claim C4 counterexample: in the EventKit implementation a single
failing store call aborts the whole run. With one managed event planned for
deletion and a store whose `remove` throws, `syncShifts` rethrows: the run
returns an error, continues with nothing, and produces no `SyncResult`. -/
theorem ek_sync_aborts_on_item_failure :
    ekSyncShifts (fun op => match op with | .removeOp _ => true | _ => false)
        [] ⟨[⟨0, some "バイト".toList, 29474520, 29475000, some "StoreA".toList,
          some (createNotes "shift-x".toList []), none⟩], 1⟩ 29474640 =
      .error "remove failed".toList := by
  rfl

/-! ## Claim C7, counterexample (EventKit side) -/

/-- The desired record scraped twice (identical start, end, location). -/
def dupShift : Shift :=
  ⟨Shift.makeUID 29474520 29475000 "StoreA".toList, "バイト".toList, 29474520,
    29475000, "StoreA".toList, []⟩

/-- Claim C7 counterexample: the EventKit implementation deduplicates
nothing on the desired side. With the same scraped row twice and an empty
calendar, one run saves two events for the single identity and reports
`added = 2`; the closing self-heal dedup then removes one of them again,
but two creates were written for one identity in a single run. -/
theorem ek_sync_creates_twice_for_duplicated_input :
    ekSyncShifts orcNone [dupShift, dupShift] ⟨[], 0⟩ 29474640 =
      .ok (⟨2, 0, 0, [dupShift, dupShift], [], []⟩,
        ⟨[createEventFor dupShift 0], 2⟩) := by
  rfl

/-! ## The Google Calendar sync (`GoogleCalendarService.syncShifts`,
GoogleCalendarService.swift:91-133)

The REST transport is abstracted: `existing` is the parsed event list the
run fetches, `endInstant` models the value `eventEndDate` recovers from the
wire format, and the trace records the calls a fully successful run issues
(any throwing call would abort the run, as in the EventKit variant). -/

/-- A Google event as the sync reads it. -/
structure GoogleEvent where
  gid : Str
  summary : Option Str
  description : Option Str
  startInstant : Option Int
  endInstant : Option Int
  deriving DecidableEq, Repr

/-- The delete-set filter (GoogleCalendarService.swift:104-110): an event
with a parseable end lying before `now` is protected; an event without a
parseable end is not. -/
def gToDelete (existing : List GoogleEvent) (desiredUIDs : List Str) (now : Int) :
    List GoogleEvent :=
  existing.filter (fun e =>
    match extractShiftUID e.description with
    | none => false
    | some uid =>
        match e.endInstant with
        | some d => if d < now then false else !(desiredUIDs.contains uid)
        | none => !(desiredUIDs.contains uid))

/-- The create/update loop (GoogleCalendarService.swift:117-130): a matched
shift is always PUT and counted as updated — there is no content
comparison; an unmatched shift is created and counted. -/
def gApplyLoop : List Shift → List GoogleEvent → List Str →
    SyncResult → List (Str × Shift) → List Shift →
    SyncResult × List (Str × Shift) × List Shift
  | [], _, _, r, ups, crs => (r, ups, crs)
  | s :: rest, existing, existingUIDs, r, ups, crs =>
      if existingUIDs.contains s.uid then
        match existing.find? (fun e => extractShiftUID e.description == some s.uid) with
        | some ev =>
            gApplyLoop rest existing existingUIDs
              { r with updated := r.updated + 1 } (ups ++ [(ev.gid, s)]) crs
        | none => gApplyLoop rest existing existingUIDs r ups crs
      else
        gApplyLoop rest existing existingUIDs
          { r with added := r.added + 1 } ups (crs ++ [s])

/-- `GoogleCalendarService.syncShifts` on a fully successful run: the
returned `SyncResult` (the Google variant fills only the counts), the ids
deleted, the update PUTs and the creations, in order. -/
def googleSyncShifts (shifts : List Shift) (existing : List GoogleEvent)
    (now : Int) : SyncResult × List Str × List (Str × Shift) × List Shift :=
  let existingUIDs := existing.filterMap (fun e => extractShiftUID e.description)
  let toDelete := gToDelete existing (shifts.map (·.uid)) now
  let ror := gApplyLoop shifts existing existingUIDs
    { SyncResult.empty with deleted := toDelete.length } [] []
  (ror.1, toDelete.map (·.gid), ror.2.1, ror.2.2)

/-- The event a successful Google `createEvent` stores, as the next run
lists it (`createEventBody`, GoogleCalendarService.swift:267-278; the ISO
strings round-trip to the same instants and the server assigns the id). -/
def googleStoredEvent (gid : Str) (s : Shift) : GoogleEvent :=
  ⟨gid, some s.title, some (createNotes s.uid s.memo), some s.start, some s.stop⟩

/-! ## Claim C1, counterexample (Google side) -/

/-- The desired shift of the Google two-run scenario. -/
def gShift : Shift :=
  ⟨Shift.makeUID 29474520 29475000 "StoreA".toList, "バイト".toList, 29474520,
    29475000, "StoreA".toList, []⟩

/-- Claim C1 counterexample: in the Google implementation the second run is
not a no-op. Run 1 on an empty store creates the one desired event; run 2
lists exactly the event run 1 stored — identical start, end, title and
location, no external mutation — yet returns `updated = 1`, because every
matched shift is rewritten and counted with no content comparison. -/
theorem google_second_run_counts_update :
    (googleSyncShifts [gShift] [] 29474640).1.added = 1 ∧
    (googleSyncShifts [gShift] [] 29474640).2.2.2 = [gShift] ∧
    (googleSyncShifts [gShift]
      [googleStoredEvent "e1".toList gShift] 29474640).1.updated = 1 ∧
    (googleSyncShifts [gShift]
      [googleStoredEvent "e1".toList gShift] 29474640).1.added = 0 ∧
    (googleSyncShifts [gShift]
      [googleStoredEvent "e1".toList gShift] 29474640).1.deleted = 0 := by
  refine ⟨?_, ?_, ?_, ?_, ?_⟩ <;> rfl

/-! ## Claim C2, amended theorem -/

/-- Claim C2 (amended): in the EventKit and Google implementations an
existing managed event whose end is strictly before now is never placed in
the reconciliation delete set, even when its identity is absent from the
desired set; an event enters the EventKit delete set exactly when it
carries a uid, has not ended before now, and its uid is not desired; and a
Google-deleted event with a parseable end has likewise not yet ended. (The
Go implementation deletes with no time protection at all — see the
counterexample.) -/
theorem past_events_not_in_delete_set (existing : List EKEvent)
    (gexisting : List GoogleEvent) (desiredUIDs : List Str) (now : Int) :
    (∀ e ∈ existing, e.endDate < now → e ∉ ekToDelete existing desiredUIDs now) ∧
    (∀ e ∈ ekToDelete existing desiredUIDs now,
      ∃ uid, extractShiftUID e.notes = some uid ∧ ¬ e.endDate < now ∧
        uid ∉ desiredUIDs) ∧
    (∀ e ∈ gToDelete gexisting desiredUIDs now, ∀ d, e.endInstant = some d →
      ¬ d < now) := by
  refine ⟨?_, ?_, ?_⟩
  · intro e _ hlt hmem
    rw [ekToDelete, List.mem_filter] at hmem
    have hp := hmem.2
    cases hex : extractShiftUID e.notes with
    | none => rw [hex] at hp; simp at hp
    | some uid => rw [hex] at hp; simp [hlt] at hp
  · intro e hmem
    rw [ekToDelete, List.mem_filter] at hmem
    have hp := hmem.2
    cases hex : extractShiftUID e.notes with
    | none => rw [hex] at hp; simp at hp
    | some uid =>
      rw [hex] at hp
      by_cases hlt : e.endDate < now
      · simp [hlt] at hp
      · rw [show (match some uid with
            | none => false
            | some uid => if e.endDate < now then false
              else !desiredUIDs.contains uid) =
            (if e.endDate < now then false else !desiredUIDs.contains uid) from rfl,
          if_neg hlt] at hp
        simp only [Bool.not_eq_true'] at hp
        refine ⟨uid, rfl, hlt, fun hmem2 => ?_⟩
        simp at hp
        exact hp hmem2
  · intro e hmem d hd hlt
    rw [gToDelete, List.mem_filter] at hmem
    have hp := hmem.2
    cases hex : extractShiftUID e.description with
    | none => rw [hex] at hp; simp at hp
    | some uid => rw [hex, hd] at hp; simp [hlt] at hp

/-- Witness for the amended C2 theorem: a concrete managed event that ended
before now is kept out of the delete set although it is not desired. -/
theorem past_events_not_in_delete_set_witness :
    (⟨0, none, 0, 100, none, some (createNotes "u".toList []), none⟩ : EKEvent) ∉
      ekToDelete [⟨0, none, 0, 100, none, some (createNotes "u".toList []), none⟩]
        [] 200 :=
  (past_events_not_in_delete_set
      [⟨0, none, 0, 100, none, some (createNotes "u".toList []), none⟩] [] [] 200).1
    ⟨0, none, 0, 100, none, some (createNotes "u".toList []), none⟩
    (by decide) (by decide)

/-! ## The deduplication policy (towards claim C5) -/

/-- The tie-break order as the spec states it, as a preference relation:
`a` is at least as preferred as `b` when it was modified more recently, or
ties on modification and scores strictly higher, or ties on both and starts
no later. -/
def prefGE (a b : EKEvent) : Prop :=
  modKey a > modKey b ∨
    (modKey a = modKey b ∧ (eventQualityScore a > eventQualityScore b ∨
      (eventQualityScore a = eventQualityScore b ∧ a.startDate ≤ b.startDate)))

theorem prefGE_trans {a b c : EKEvent} (h1 : prefGE a b) (h2 : prefGE b c) :
    prefGE a c := by
  unfold prefGE at h1 h2 ⊢
  omega

theorem preferredEvent_cases (a b : EKEvent) :
    preferredEvent a b = a ∨ preferredEvent a b = b := by
  unfold preferredEvent
  repeat' split
  all_goals simp

theorem preferredEvent_ge_left (a b : EKEvent) : prefGE (preferredEvent a b) a := by
  unfold preferredEvent prefGE
  repeat' split
  all_goals omega

theorem preferredEvent_ge_right (a b : EKEvent) : prefGE (preferredEvent a b) b := by
  unfold preferredEvent prefGE
  repeat' split
  all_goals omega

theorem updateSel_cons (p : Str × EKEvent) (rest : List (Str × EKEvent))
    (uid : Str) (e : EKEvent) :
    updateSel (p :: rest) uid e =
      (if p.1 = uid then (uid, e) else p) :: updateSel rest uid e := rfl

theorem lookupSel_cons (p : Str × EKEvent) (rest : List (Str × EKEvent))
    (uid : Str) :
    lookupSel (p :: rest) uid =
      if p.1 = uid then some p.2 else lookupSel rest uid := by
  unfold lookupSel
  rw [List.find?_cons]
  by_cases hp : p.1 = uid
  · have : (p.1 == uid) = true := by simp [hp]
    rw [this, if_pos hp]
  · have : (p.1 == uid) = false := by simp [hp]
    rw [this, if_neg hp]

theorem updateSel_fst (sel : List (Str × EKEvent)) (uid : Str) (e : EKEvent) :
    (updateSel sel uid e).map Prod.fst = sel.map Prod.fst := by
  induction sel with
  | nil => rfl
  | cons p rest ih =>
    rw [updateSel_cons, List.map_cons, List.map_cons, ih]
    by_cases h : p.1 = uid
    · rw [if_pos h, h]
    · rw [if_neg h]

theorem updateSel_not_mem {sel : List (Str × EKEvent)} {uid : Str}
    (h : uid ∉ sel.map Prod.fst) (e : EKEvent) : updateSel sel uid e = sel := by
  induction sel with
  | nil => rfl
  | cons p rest ih =>
    simp only [List.map_cons, List.mem_cons, not_or] at h
    rw [updateSel_cons, if_neg (fun hp => h.1 hp.symm), ih h.2]

theorem lookupSel_none_iff {sel : List (Str × EKEvent)} {uid : Str} :
    lookupSel sel uid = none ↔ uid ∉ sel.map Prod.fst := by
  induction sel with
  | nil => exact ⟨fun _ => by simp, fun _ => rfl⟩
  | cons p rest ih =>
    rw [lookupSel_cons, List.map_cons, List.mem_cons]
    by_cases hp : p.1 = uid
    · rw [if_pos hp]
      constructor
      · intro hsome
        exact Option.noConfusion hsome
      · intro hn
        exact absurd (Or.inl hp.symm) hn
    · rw [if_neg hp]
      rw [ih]
      simp only [not_or]
      constructor
      · intro hn
        exact ⟨fun hq => hp hq.symm, hn⟩
      · intro hn
        exact hn.2

theorem lookupSel_some_decomp {sel : List (Str × EKEvent)} {uid : Str}
    {ex : EKEvent} (h : lookupSel sel uid = some ex) :
    ∃ l1 l2, sel = l1 ++ (uid, ex) :: l2 ∧ uid ∉ l1.map Prod.fst ∧
      ∀ e, updateSel sel uid e = l1 ++ (uid, e) :: updateSel l2 uid e := by
  induction sel with
  | nil => exact Option.noConfusion h
  | cons p rest ih =>
    rw [lookupSel_cons] at h
    by_cases hp : p.1 = uid
    · rw [if_pos hp] at h
      simp only [Option.some.injEq] at h
      refine ⟨[], rest, ?_, by simp, ?_⟩
      · have : p = (uid, ex) := by
          cases p
          simp only [Prod.mk.injEq]
          exact ⟨hp, h⟩
        rw [this, List.nil_append]
      · intro e
        rw [updateSel_cons, if_pos hp, List.nil_append]
    · rw [if_neg hp] at h
      obtain ⟨l1, l2, hsel, hni, hupd⟩ := ih h
      refine ⟨p :: l1, l2, by rw [hsel, List.cons_append], ?_, ?_⟩
      · simp only [List.map_cons, List.mem_cons, not_or]
        exact ⟨fun hq => hp hq.symm, hni⟩
      · intro e
        rw [updateSel_cons, if_neg hp, hupd e, List.cons_append]

/-- A successful sequential removal deletes exactly the listed objects. -/
theorem ekRemoveAll_ok (dups : List EKEvent) (st : EKStore) :
    ekRemoveAll orcNone dups st =
      .ok ⟨st.events.filter (fun x => !((dups.map (·.eid)).contains x.eid)),
        st.nextEid⟩ := by
  induction dups generalizing st with
  | nil => simp [ekRemoveAll]
  | cons e rest ih =>
    have hfil : (st.events.filter (fun x => x.eid != e.eid)).filter
        (fun x => !((rest.map (·.eid)).contains x.eid)) =
        st.events.filter (fun x => !(((e :: rest).map (·.eid)).contains x.eid)) := by
      rw [List.filter_filter]
      apply List.filter_congr
      intro x _
      simp only [List.map_cons, List.contains_cons]
      cases hxe : x.eid == e.eid
      · simp only [beq_eq_false_iff_ne, ne_eq] at hxe
        simp [hxe]
      · simp only [beq_iff_eq] at hxe
        simp [hxe]
    rw [ekRemoveAll, ekRemove]
    simp only [orcNone, Bool.false_eq_true, if_false]
    rw [ih]
    rw [show (⟨st.events.filter (fun x => x.eid != e.eid), st.nextEid⟩ :
        EKStore).events = st.events.filter (fun x => x.eid != e.eid) from rfl]
    rw [hfil]

theorem insertByStart_perm (e : EKEvent) (l : List EKEvent) :
    List.Perm (insertByStart e l) (e :: l) := by
  induction l with
  | nil => exact List.Perm.refl _
  | cons x xs ih =>
    rw [insertByStart]
    by_cases h : e.startDate ≤ x.startDate
    · rw [if_pos h]
    · rw [if_neg h]
      exact (ih.cons x).trans (List.Perm.swap e x xs)

theorem sortByStart_perm (l : List EKEvent) : List.Perm (sortByStart l) l := by
  induction l with
  | nil => exact List.Perm.refl _
  | cons x xs ih => exact (insertByStart_perm x (sortByStart xs)).trans (ih.cons x)

theorem tagged_filterMap {sel : List (Str × EKEvent)}
    (h : ∀ p ∈ sel, extractShiftUID p.2.notes = some p.1) :
    (sel.map Prod.snd).filterMap (fun e => extractShiftUID e.notes) =
      sel.map Prod.fst := by
  induction sel with
  | nil => rfl
  | cons p rest ih =>
    simp only [List.map_cons, List.filterMap_cons, h p (by simp)]
    rw [ih (fun q hq => h q (by simp [hq]))]

theorem prefGE_refl (a : EKEvent) : prefGE a a := by
  unfold prefGE
  omega

/-- Distinct keys make entries with equal keys identical. -/
theorem nodup_keys_eq {l : List (Str × EKEvent)} (hnd : (l.map Prod.fst).Nodup)
    {p q : Str × EKEvent} (hp : p ∈ l) (hq : q ∈ l) (h : p.1 = q.1) : p = q := by
  induction l with
  | nil => cases hp
  | cons x rest ih =>
    simp only [List.map_cons, List.nodup_cons] at hnd
    rcases List.mem_cons.1 hp with rfl | hp2
    · rcases List.mem_cons.1 hq with rfl | hq2
      · rfl
      · exact absurd (h ▸ List.mem_map_of_mem Prod.fst hq2) hnd.1
    · rcases List.mem_cons.1 hq with rfl | hq2
      · exact absurd (h ▸ List.mem_map_of_mem Prod.fst hp2) hnd.1
      · exact ih hnd.2 hp2 hq2

/-- Specification of the dedup selection loop, by induction along the
scanned events, generalising over the accumulated dictionary: the final
dictionary has distinct keys covering exactly the accumulated and scanned
identities, every entry is keyed by its event's own uid, the surviving
values together with the removed duplicates are a permutation of the
accumulated values and the marker-bearing scanned events, and every final
entry is at least as preferred as every accumulated entry and every scanned
event of its identity. -/
theorem dedupScan_spec (evs : List EKEvent) :
    ∀ sel : List (Str × EKEvent),
    (sel.map Prod.fst).Nodup →
    (∀ p ∈ sel, extractShiftUID p.2.notes = some p.1) →
    ((dedupScan evs sel).1.map Prod.fst).Nodup ∧
    (∀ p ∈ (dedupScan evs sel).1, extractShiftUID p.2.notes = some p.1) ∧
    (∀ u, u ∈ (dedupScan evs sel).1.map Prod.fst ↔
      (u ∈ sel.map Prod.fst ∨ ∃ e ∈ evs, extractShiftUID e.notes = some u)) ∧
    List.Perm ((dedupScan evs sel).1.map Prod.snd ++ (dedupScan evs sel).2)
      (sel.map Prod.snd ++ evs.filter (fun e => (extractShiftUID e.notes).isSome)) ∧
    (∀ p ∈ (dedupScan evs sel).1,
      (∀ q ∈ sel, q.1 = p.1 → prefGE p.2 q.2) ∧
      (∀ e ∈ evs, extractShiftUID e.notes = some p.1 → prefGE p.2 e)) := by
  induction evs with
  | nil =>
    intro sel hnd htag
    refine ⟨hnd, htag, ?_, ?_, ?_⟩
    · intro u
      constructor
      · exact Or.inl
      · rintro (h | ⟨e, he, _⟩)
        · exact h
        · cases he
    · simp only [dedupScan, List.filter_nil, List.append_nil]
      exact List.Perm.refl _
    · intro p hp
      refine ⟨fun q hq hqp => ?_, fun e he => absurd he (List.not_mem_nil e)⟩
      have : q = p := nodup_keys_eq hnd hq hp hqp
      rw [this]
      exact prefGE_refl _
  | cons e rest ih =>
    intro sel hnd htag
    cases hex : extractShiftUID e.notes with
    | none =>
      have heq : dedupScan (e :: rest) sel = dedupScan rest sel := by
        rw [dedupScan, hex]
      obtain ⟨h1, h2, h3, h4, h5⟩ := ih sel hnd htag
      rw [heq]
      refine ⟨h1, h2, ?_, ?_, ?_⟩
      · intro u
        rw [h3 u]
        constructor
        · rintro (h | ⟨e2, he2, hx⟩)
          · exact Or.inl h
          · exact Or.inr ⟨e2, List.mem_cons_of_mem e he2, hx⟩
        · rintro (h | ⟨e2, he2, hx⟩)
          · exact Or.inl h
          · rcases List.mem_cons.1 he2 with rfl | he3
            · rw [hex] at hx
              cases hx
            · exact Or.inr ⟨e2, he3, hx⟩
      · have hfil : (e :: rest).filter (fun x => (extractShiftUID x.notes).isSome) =
            rest.filter (fun x => (extractShiftUID x.notes).isSome) := by
          simp only [List.filter_cons, hex, Option.isSome_none, Bool.false_eq_true,
            if_false]
        rw [hfil]
        exact h4
      · intro p hp
        obtain ⟨ha, hb⟩ := h5 p hp
        refine ⟨ha, fun e2 he2 hx => ?_⟩
        rcases List.mem_cons.1 he2 with rfl | he3
        · rw [hex] at hx
          cases hx
        · exact hb e2 he3 hx
    | some u =>
      cases hlook : lookupSel sel u with
      | none =>
        have heq : dedupScan (e :: rest) sel = dedupScan rest (sel ++ [(u, e)]) := by
          rw [dedupScan, hex]
          dsimp only
          rw [hlook]
        have hu_not : u ∉ sel.map Prod.fst := lookupSel_none_iff.1 hlook
        have hnd2 : ((sel ++ [(u, e)]).map Prod.fst).Nodup := by
          rw [List.map_append]
          rw [List.nodup_append]
          exact ⟨hnd, List.nodup_singleton u, by simpa using hu_not⟩
        have htag2 : ∀ p ∈ sel ++ [(u, e)], extractShiftUID p.2.notes = some p.1 := by
          intro p hp
          rcases List.mem_append.1 hp with hp2 | hp2
          · exact htag p hp2
          · simp only [List.mem_singleton] at hp2
            rw [hp2]
            exact hex
        obtain ⟨h1, h2, h3, h4, h5⟩ := ih _ hnd2 htag2
        rw [heq]
        refine ⟨h1, h2, ?_, ?_, ?_⟩
        · intro u2
          rw [h3 u2]
          rw [List.map_append]
          constructor
          · rintro (h | ⟨e2, he2, hx⟩)
            · rcases List.mem_append.1 h with h | h
              · exact Or.inl h
              · simp only [List.map_cons, List.map_nil, List.mem_singleton] at h
                exact Or.inr ⟨e, List.mem_cons_self e rest, h ▸ hex⟩
            · exact Or.inr ⟨e2, List.mem_cons_of_mem e he2, hx⟩
          · rintro (h | ⟨e2, he2, hx⟩)
            · exact Or.inl (List.mem_append_left _ h)
            · rcases List.mem_cons.1 he2 with rfl | he3
              · refine Or.inl (List.mem_append_right _ ?_)
                rw [hex] at hx
                simp [Option.some.inj hx]
              · exact Or.inr ⟨e2, he3, hx⟩
        · have hfil : (e :: rest).filter (fun x => (extractShiftUID x.notes).isSome) =
              e :: rest.filter (fun x => (extractShiftUID x.notes).isSome) := by
            simp only [List.filter_cons, hex, Option.isSome_some, if_true]
          rw [hfil]
          refine h4.trans ?_
          rw [List.map_append]
          simp only [List.map_cons, List.map_nil]
          rw [List.append_assoc]
          exact List.Perm.refl _
        · intro p hp
          obtain ⟨ha, hb⟩ := h5 p hp
          refine ⟨fun q hq hqp => ha q (List.mem_append_left _ hq) hqp,
            fun e2 he2 hx => ?_⟩
          rcases List.mem_cons.1 he2 with rfl | he3
          · have hpu : p.1 = u := by
              rw [hex] at hx
              exact (Option.some.inj hx).symm
            exact ha (u, e2) (List.mem_append_right _ (by simp)) hpu.symm
          · exact hb e2 he3 hx
      | some ex =>
        obtain ⟨l1, l2, hsel, hl1, hupd⟩ := lookupSel_some_decomp hlook
        have hkeys : (l1.map Prod.fst ++ u :: l2.map Prod.fst).Nodup := by
          rw [hsel] at hnd
          simpa using hnd
        have hu_l2 : u ∉ l2.map Prod.fst :=
          (List.nodup_cons.1 (List.nodup_append.1 hkeys).2.1).1
        have hu_mem : u ∈ sel.map Prod.fst := by
          rw [hsel]
          simp
        have hexu : extractShiftUID ex.notes = some u :=
          htag (u, ex) (by rw [hsel]; simp)
        set pref := preferredEvent ex e with hprefdef
        have hself : updateSel sel u pref = l1 ++ (u, pref) :: l2 := by
          rw [hupd pref, updateSel_not_mem hu_l2]
        have heq : dedupScan (e :: rest) sel =
            ((dedupScan rest (updateSel sel u pref)).1,
              (if pref = ex then e else ex) ::
                (dedupScan rest (updateSel sel u pref)).2) := by
          rw [dedupScan, hex]
          dsimp only
          rw [hlook]
        have hnd2 : ((updateSel sel u pref).map Prod.fst).Nodup := by
          rw [updateSel_fst]
          exact hnd
        have hprefex : extractShiftUID pref.notes = some u := by
          rcases preferredEvent_cases ex e with hc | hc
          · rw [hprefdef, hc]
            exact hexu
          · rw [hprefdef, hc]
            exact hex
        have htag2 : ∀ p ∈ updateSel sel u pref,
            extractShiftUID p.2.notes = some p.1 := by
          intro p hp
          rw [hself] at hp
          rcases List.mem_append.1 hp with hp2 | hp2
          · exact htag p (by rw [hsel]; exact List.mem_append_left _ hp2)
          · rcases List.mem_cons.1 hp2 with rfl | hp3
            · exact hprefex
            · refine htag p ?_
              rw [hsel]
              exact List.mem_append_right _ (List.mem_cons_of_mem _ hp3)
        obtain ⟨h1, h2, h3, h4, h5⟩ := ih _ hnd2 htag2
        rw [heq]
        refine ⟨h1, h2, ?_, ?_, ?_⟩
        · intro u2
          rw [show (((dedupScan rest (updateSel sel u pref)).1,
              (if pref = ex then e else ex) ::
                (dedupScan rest (updateSel sel u pref)).2).1) =
            (dedupScan rest (updateSel sel u pref)).1 from rfl]
          rw [h3 u2, updateSel_fst]
          constructor
          · rintro (h | ⟨e2, he2, hx⟩)
            · exact Or.inl h
            · exact Or.inr ⟨e2, List.mem_cons_of_mem e he2, hx⟩
          · rintro (h | ⟨e2, he2, hx⟩)
            · exact Or.inl h
            · rcases List.mem_cons.1 he2 with rfl | he3
              · rw [hex] at hx
                exact Or.inl ((Option.some.inj hx) ▸ hu_mem)
              · exact Or.inr ⟨e2, he3, hx⟩
        · have hfil : (e :: rest).filter (fun x => (extractShiftUID x.notes).isSome) =
              e :: rest.filter (fun x => (extractShiftUID x.notes).isSome) := by
            rw [List.filter_cons_of_pos]
            rw [hex]
            rfl
          rw [hfil]
          set obs := if pref = ex then e else ex with hobsdef
          set Fr := rest.filter (fun x => (extractShiftUID x.notes).isSome)
          set scan := dedupScan rest (updateSel sel u pref)
          have step1 : List.Perm (scan.1.map Prod.snd ++ obs :: scan.2)
              (obs :: (scan.1.map Prod.snd ++ scan.2)) := List.perm_middle
          have step2 : List.Perm (obs :: (scan.1.map Prod.snd ++ scan.2))
              (obs :: ((updateSel sel u pref).map Prod.snd ++ Fr)) := h4.cons obs
          have hselsnd : (updateSel sel u pref).map Prod.snd =
              l1.map Prod.snd ++ pref :: l2.map Prod.snd := by
            rw [hself]
            simp
          have step3 : List.Perm
              (obs :: ((updateSel sel u pref).map Prod.snd ++ Fr))
              (obs :: pref :: (l1.map Prod.snd ++ (l2.map Prod.snd ++ Fr))) := by
            refine List.Perm.cons obs ?_
            rw [hselsnd, List.append_assoc]
            exact List.perm_middle
          have step4 : List.Perm
              (obs :: pref :: (l1.map Prod.snd ++ (l2.map Prod.snd ++ Fr)))
              (ex :: e :: (l1.map Prod.snd ++ (l2.map Prod.snd ++ Fr))) := by
            by_cases hc : pref = ex
            · rw [hobsdef, if_pos hc, hc]
              exact List.Perm.swap ex e _
            · have hce : pref = e := by
                rcases preferredEvent_cases ex e with h | h
                · exact absurd (hprefdef.trans h) hc
                · exact hprefdef.trans h
              rw [hobsdef, if_neg hc, hce]
          have step5 : List.Perm
              (ex :: e :: (l1.map Prod.snd ++ (l2.map Prod.snd ++ Fr)))
              (sel.map Prod.snd ++ e :: Fr) := by
            have hsnd : sel.map Prod.snd = l1.map Prod.snd ++ ex :: l2.map Prod.snd := by
              rw [hsel]
              simp
            rw [hsnd, List.append_assoc]
            refine List.Perm.trans ?_ List.perm_middle.symm
            refine List.Perm.cons ex ?_
            refine List.Perm.symm ?_
            exact List.Perm.trans (List.Perm.append_left _ List.perm_middle)
              List.perm_middle
          exact (((step1.trans step2).trans step3).trans step4).trans step5
        · intro p hp
          obtain ⟨ha, hb⟩ := h5 p hp
          have hbeat_pref : p.1 = u → prefGE p.2 pref := by
            intro hpu
            exact ha (u, pref) (by rw [hself]; simp) hpu.symm
          refine ⟨fun q hq hqp => ?_, fun e2 he2 hx => ?_⟩
          · by_cases hqu : q.1 = u
            · have : q = (u, ex) := by
                refine nodup_keys_eq hnd hq ?_ hqu
                rw [hsel]
                simp
              rw [this]
              refine prefGE_trans (hbeat_pref (by rw [← hqp, hqu])) ?_
              exact preferredEvent_ge_left ex e
            · refine ha q ?_ hqp
              rw [hself]
              rw [hsel] at hq
              rcases List.mem_append.1 hq with hq2 | hq2
              · exact List.mem_append_left _ hq2
              · rcases List.mem_cons.1 hq2 with rfl | hq3
                · exact absurd rfl hqu
                · exact List.mem_append_right _ (List.mem_cons_of_mem _ hq3)
          · rcases List.mem_cons.1 he2 with rfl | he3
            · have hpu : p.1 = u := by
                rw [hex] at hx
                exact (Option.some.inj hx).symm
              refine prefGE_trans (hbeat_pref hpu) ?_
              exact preferredEvent_ge_right ex e2
            · exact hb e2 he3 hx

/-- With pairwise-distinct identities (and none already selected along
`sel`), a scan selects every marker-bearing event in order and removes
nothing. -/
theorem dedupScan_nodup_noop (l : List EKEvent) :
    ∀ sel : List (Str × EKEvent),
    ((sel.map Prod.fst) ++ l.filterMap (fun e => extractShiftUID e.notes)).Nodup →
    dedupScan l sel =
      (sel ++ l.filterMap
        (fun e => (extractShiftUID e.notes).map (fun u => (u, e))), []) := by
  induction l with
  | nil =>
    intro sel _
    simp [dedupScan]
  | cons e rest ih =>
    intro sel hnd
    cases hex : extractShiftUID e.notes with
    | none =>
      have heq : dedupScan (e :: rest) sel = dedupScan rest sel := by
        rw [dedupScan, hex]
      rw [heq]
      rw [List.filterMap_cons, hex] at hnd
      rw [ih sel hnd]
      simp [List.filterMap_cons, hex]
    | some u =>
      rw [List.filterMap_cons, hex] at hnd
      have hu : u ∉ sel.map Prod.fst := by
        intro hmem
        exact (List.nodup_append.1 hnd).2.2 hmem (by simp)
      have hlook : lookupSel sel u = none := lookupSel_none_iff.2 hu
      have heq : dedupScan (e :: rest) sel = dedupScan rest (sel ++ [(u, e)]) := by
        rw [dedupScan, hex]
        dsimp only
        rw [hlook]
      rw [heq]
      have hnd2 : (((sel ++ [(u, e)]).map Prod.fst) ++
          rest.filterMap (fun e => extractShiftUID e.notes)).Nodup := by
        rw [List.map_append]
        rw [List.append_assoc]
        exact hnd
      rw [ih _ hnd2]
      simp [List.filterMap_cons, hex, List.append_assoc]

/-! ## Claim C5 -/

/-- Claim C5: given any list of remote events, possibly with several events
per identity, the deduplication pass keeps exactly one survivor per present
identity (distinct keys covering precisely the identities that occur, each
survivor carrying its own key), removes exactly the rest (survivors and
removals together are a permutation of the marker-bearing events, and the
store loses precisely the removed objects); the survivor is at least as
preferred as every event of its identity under the policy (most recent
lastModified first, then higher quality score — non-empty title, non-empty
location, start < end — then earlier start, first-seen winning full ties);
and running the pass again on the result removes nothing further. -/
theorem deduplication_one_survivor_per_identity (evs : List EKEvent)
    (st : EKStore) :
    ((dedupScan evs []).1.map Prod.fst).Nodup ∧
    (∀ u, u ∈ (dedupScan evs []).1.map Prod.fst ↔
      ∃ e ∈ evs, extractShiftUID e.notes = some u) ∧
    (∀ p ∈ (dedupScan evs []).1, extractShiftUID p.2.notes = some p.1) ∧
    List.Perm ((dedupScan evs []).1.map Prod.snd ++ (dedupScan evs []).2)
      (evs.filter (fun e => (extractShiftUID e.notes).isSome)) ∧
    (∀ p ∈ (dedupScan evs []).1, ∀ e ∈ evs,
      extractShiftUID e.notes = some p.1 → prefGE p.2 e) ∧
    (dedupScan (sortByStart ((dedupScan evs []).1.map Prod.snd)) []).2 = [] ∧
    deduplicateShiftEvents orcNone evs st =
      .ok (sortByStart ((dedupScan evs []).1.map Prod.snd),
        ⟨st.events.filter
          (fun x => !(((dedupScan evs []).2.map (·.eid)).contains x.eid)),
          st.nextEid⟩) := by
  obtain ⟨h1, h2, h3, h4, h5⟩ :=
    dedupScan_spec evs [] List.nodup_nil (by intro p hp; cases hp)
  refine ⟨h1, ?_, h2, ?_, ?_, ?_, ?_⟩
  · intro u
    rw [h3 u]
    simp
  · simpa using h4
  · intro p hp e he hx
    exact (h5 p hp).2 e he hx
  · have hperm : List.Perm
        ((sortByStart ((dedupScan evs []).1.map Prod.snd)).filterMap
          (fun e => extractShiftUID e.notes))
        (((dedupScan evs []).1.map Prod.snd).filterMap
          (fun e => extractShiftUID e.notes)) :=
      (sortByStart_perm _).filterMap _
    have heqfm : ((dedupScan evs []).1.map Prod.snd).filterMap
        (fun e => extractShiftUID e.notes) = (dedupScan evs []).1.map Prod.fst :=
      tagged_filterMap h2
    have hnd2 : (([] : List (Str × EKEvent)).map Prod.fst ++
        (sortByStart ((dedupScan evs []).1.map Prod.snd)).filterMap
          (fun e => extractShiftUID e.notes)).Nodup := by
      rw [List.map_nil, List.nil_append]
      have horig : (((dedupScan evs []).1.map Prod.snd).filterMap
          (fun e => extractShiftUID e.notes)).Nodup := by
        rw [heqfm]
        exact h1
      exact hperm.symm.nodup horig
    rw [dedupScan_nodup_noop _ [] hnd2]
  · unfold deduplicateShiftEvents
    rw [ekRemoveAll_ok]

/-- Witness for the C5 theorem: with two concrete duplicates of one
identity and an unrelated singleton, one survivor per identity remains,
the policy keeps the most recently modified duplicate, and the second pass
removes nothing. -/
theorem deduplication_one_survivor_per_identity_witness :
    (dedupScan (sortByStart ((dedupScan
        [⟨0, some "a".toList, 10, 20, none, some (createNotes "u1".toList []), some 5⟩,
         ⟨1, some "b".toList, 10, 20, none, some (createNotes "u1".toList []), some 9⟩,
         ⟨2, none, 30, 40, none, some (createNotes "u2".toList []), none⟩] []).1.map
          Prod.snd)) []).2 = [] :=
  (deduplication_one_survivor_per_identity
    [⟨0, some "a".toList, 10, 20, none, some (createNotes "u1".toList []), some 5⟩,
     ⟨1, some "b".toList, 10, 20, none, some (createNotes "u1".toList []), some 9⟩,
     ⟨2, none, 30, 40, none, some (createNotes "u2".toList []), none⟩]
    ⟨[], 0⟩).2.2.2.2.2.1

/-! ## Towards claim C1: store well-formedness and the synced state -/

/-- Well-formed store: object identities are unique and below the fresh
counter. -/
def WFStore (st : EKStore) : Prop :=
  (st.events.map (·.eid)).Nodup ∧ ∀ e ∈ st.events, e.eid < st.nextEid

/-- Content agreement between an event and a shift — exactly the fields
`needsUpdate` compares. -/
def contentEq (e : EKEvent) (s : Shift) : Prop :=
  e.title = some s.title ∧ e.startDate = s.start ∧ e.endDate = s.stop ∧
    e.location = some s.location

/-- The state a successful run leaves behind: managed identities are
unique, every desired shift is materialised with matching content, and
every other managed event already ended. -/
def Synced (shifts : List Shift) (now : Int) (st : EKStore) : Prop :=
  (st.events.filterMap (fun e => extractShiftUID e.notes)).Nodup ∧
  (∀ s ∈ shifts, ∃ e ∈ st.events,
    extractShiftUID e.notes = some s.uid ∧ contentEq e s) ∧
  (∀ e ∈ st.events, ∀ u, extractShiftUID e.notes = some u →
    u ∉ shifts.map (·.uid) → e.endDate < now)

theorem needsUpdate_eq_false_iff (e : EKEvent) (s : Shift) :
    needsUpdate e s = false ↔ contentEq e s := by
  unfold needsUpdate contentEq
  simp [bne, and_assoc]

theorem hasMarker_eq_isSome (notes : Option Str) :
    hasMarker notes = (extractShiftUID notes).isSome := by
  cases notes with
  | none => rfl
  | some ns =>
    simp only [hasMarker, extractShiftUID, hasSub]
    cases findSub marker ns <;> rfl

theorem mem_getExisting_iff {st : EKStore} {e : EKEvent} :
    e ∈ getExisting st ↔ e ∈ st.events ∧ (extractShiftUID e.notes).isSome := by
  simp only [getExisting, List.mem_filter, hasMarker_eq_isSome]

/-- Unique object identities make events with equal `eid` identical. -/
theorem nodup_eids_eq {l : List EKEvent} (hnd : (l.map (·.eid)).Nodup)
    {x y : EKEvent} (hx : x ∈ l) (hy : y ∈ l) (h : x.eid = y.eid) : x = y := by
  induction l with
  | nil => cases hx
  | cons a rest ih =>
    simp only [List.map_cons, List.nodup_cons] at hnd
    rcases List.mem_cons.1 hx with rfl | hx2
    · rcases List.mem_cons.1 hy with rfl | hy2
      · rfl
      · exact absurd (h ▸ List.mem_map_of_mem (·.eid) hy2) hnd.1
    · rcases List.mem_cons.1 hy with rfl | hy2
      · exact absurd (h ▸ List.mem_map_of_mem (·.eid) hx2) hnd.1
      · exact ih hnd.2 hx2 hy2

theorem filterMap_congr_mem {α β : Type} {f g : α → Option β} {l : List α}
    (h : ∀ a ∈ l, f a = g a) : l.filterMap f = l.filterMap g := by
  induction l with
  | nil => rfl
  | cons a rest ih =>
    rw [List.filterMap_cons, List.filterMap_cons, h a (by simp),
      ih (fun x hx => h x (by simp [hx]))]

theorem nodup_filterMap_of_inj {α β : Type} {f : α → Option β} {l : List α}
    (hl : l.Nodup)
    (hinj : ∀ x ∈ l, ∀ y ∈ l, ∀ u, f x = some u → f y = some u → x = y) :
    (l.filterMap f).Nodup := by
  induction l with
  | nil => exact List.nodup_nil
  | cons a rest ih =>
    rw [List.filterMap_cons]
    have hnd := List.nodup_cons.1 hl
    cases hf : f a with
    | none =>
      exact ih hnd.2 (fun x hx y hy u h1 h2 =>
        hinj x (by simp [hx]) y (by simp [hy]) u h1 h2)
    | some u =>
      rw [List.nodup_cons]
      constructor
      · intro hmem
        obtain ⟨y, hy, hfy⟩ := List.mem_filterMap.1 hmem
        have : a = y := hinj a (by simp) y (by simp [hy]) u hf hfy
        exact hnd.1 (this ▸ hy)
      · exact ih hnd.2 (fun x hx y hy v h1 h2 =>
          hinj x (by simp [hx]) y (by simp [hy]) v h1 h2)

/-- With unique managed identities, the snapshot lookup finds exactly the
known carrier of a uid. -/
theorem find?_uid_unique {l : List EKEvent} {e : EKEvent} {u : Str}
    (hnd : (l.filterMap (fun x => extractShiftUID x.notes)).Nodup)
    (he : e ∈ l) (hx : extractShiftUID e.notes = some u) :
    l.find? (fun x => extractShiftUID x.notes == some u) = some e := by
  induction l with
  | nil => cases he
  | cons a rest ih =>
    rw [List.find?_cons]
    cases hba : (extractShiftUID a.notes == some u) with
    | true =>
      have ha : extractShiftUID a.notes = some u := by
        exact eq_of_beq hba
      rcases List.mem_cons.1 he with rfl | he2
      · rfl
      · exfalso
        rw [List.filterMap_cons, ha] at hnd
        have := (List.nodup_cons.1 hnd).1
        exact this (List.mem_filterMap.2 ⟨e, he2, hx⟩)
    | false =>
      have hne : extractShiftUID a.notes ≠ some u := by
        intro hcon
        rw [hcon] at hba
        simp at hba
      rcases List.mem_cons.1 he with rfl | he2
      · exact absurd hx hne
      · refine ih ?_ he2
        rw [List.filterMap_cons] at hnd
        cases hfa : extractShiftUID a.notes with
        | none => rw [hfa] at hnd; exact hnd
        | some v => rw [hfa] at hnd; exact (List.nodup_cons.1 hnd).2

theorem contains_true_of_mem {l : List Str} {a : Str} (h : a ∈ l) :
    l.contains a = true := by
  simpa using h

/-! ### Facts about `replaceEvent` -/

theorem replaceEvent_eids (l : List EKEvent) (e : EKEvent) :
    (replaceEvent l e).map (·.eid) = l.map (·.eid) := by
  unfold replaceEvent
  rw [List.map_map]
  apply List.map_congr_left
  intro x _
  by_cases h : x.eid = e.eid
  · simp [h]
  · simp [h]

theorem mem_replaceEvent_of_ne {l : List EKEvent} {x e : EKEvent}
    (hx : x ∈ l) (h : x.eid ≠ e.eid) : x ∈ replaceEvent l e := by
  have hm := List.mem_map_of_mem (fun y => if y.eid = e.eid then e else y) hx
  dsimp only at hm
  rw [if_neg h] at hm
  exact hm

theorem mem_replaceEvent_self {l : List EKEvent} {x e : EKEvent}
    (hx : x ∈ l) (h : x.eid = e.eid) : e ∈ replaceEvent l e := by
  have hm := List.mem_map_of_mem (fun y => if y.eid = e.eid then e else y) hx
  dsimp only at hm
  rw [if_pos h] at hm
  exact hm

theorem mem_replaceEvent_cases {l : List EKEvent} {y e : EKEvent}
    (hy : y ∈ replaceEvent l e) : y = e ∨ (y ∈ l ∧ y.eid ≠ e.eid) := by
  unfold replaceEvent at hy
  obtain ⟨x, hx, hxy⟩ := List.mem_map.1 hy
  by_cases h : x.eid = e.eid
  · rw [if_pos h] at hxy
    exact Or.inl hxy.symm
  · rw [if_neg h] at hxy
    exact Or.inr ⟨hxy ▸ hx, hxy ▸ h⟩

/-- Replacing an in-store object by a same-notes value leaves the managed
identity sequence unchanged. -/
theorem replaceEvent_filterMap {l : List EKEvent} {ev ev2 : EKEvent}
    (hnd : (l.map (·.eid)).Nodup) (hmem : ev ∈ l) (heid : ev2.eid = ev.eid)
    (hnotes : ev2.notes = ev.notes) :
    (replaceEvent l ev2).filterMap (fun e => extractShiftUID e.notes) =
      l.filterMap (fun e => extractShiftUID e.notes) := by
  unfold replaceEvent
  rw [List.filterMap_map]
  apply filterMap_congr_mem
  intro x hx
  dsimp only [Function.comp]
  by_cases h : x.eid = ev2.eid
  · have hxev : x = ev := nodup_eids_eq hnd hx hmem (h.trans heid)
    rw [if_pos h, hnotes, hxev]
  · rw [if_neg h]

/-! ### The delete loop under the all-succeeding oracle -/

/-- The result bookkeeping of one delete-loop iteration. -/
def delStep (e : EKEvent) (r : SyncResult) : SyncResult :=
  let r1 :=
    match extractShiftUID e.notes with
    | some uid =>
        { r with deletedShifts := r.deletedShifts ++
                   [(⟨uid, e.title.getD [], e.startDate, e.endDate,
                     e.location.getD [], []⟩ : Shift)] }
    | none => r
  { r1 with deleted := r1.deleted + 1 }

theorem ekDeleteLoop_ok (l : List EKEvent) :
    ∀ (st : EKStore) (r : SyncResult), ∃ r2,
    ekDeleteLoop orcNone l st r =
      .ok (⟨st.events.filter (fun x => !((l.map (·.eid)).contains x.eid)),
        st.nextEid⟩, r2) := by
  induction l with
  | nil =>
    intro st r
    refine ⟨r, ?_⟩
    have hfil : st.events.filter
        (fun x => !((([] : List EKEvent).map (·.eid)).contains x.eid)) =
        st.events := List.filter_eq_self.2 (fun a _ => by simp)
    rw [ekDeleteLoop, hfil]
  | cons e rest ih =>
    intro st r
    have hfil : (st.events.filter (fun x => x.eid != e.eid)).filter
        (fun x => !((rest.map (·.eid)).contains x.eid)) =
        st.events.filter (fun x => !(((e :: rest).map (·.eid)).contains x.eid)) := by
      rw [List.filter_filter]
      apply List.filter_congr
      intro x _
      simp only [List.map_cons, List.contains_cons]
      cases hxe : x.eid == e.eid
      · simp only [beq_eq_false_iff_ne, ne_eq] at hxe
        simp [hxe]
      · simp only [beq_iff_eq] at hxe
        simp [hxe]
    have hstep : ekDeleteLoop orcNone (e :: rest) st r =
        ekDeleteLoop orcNone rest
          ⟨st.events.filter (fun x => x.eid != e.eid), st.nextEid⟩
          (delStep e r) := rfl
    obtain ⟨r2, hr2⟩ := ih ⟨st.events.filter (fun x => x.eid != e.eid), st.nextEid⟩
      (delStep e r)
    refine ⟨r2, ?_⟩
    rw [hstep, hr2]
    dsimp only
    rw [hfil]

/-! ### The dedup pass over a duplicate-free store is the identity -/

theorem dedupPairs_snd (l : List EKEvent) :
    (l.filterMap (fun e => (extractShiftUID e.notes).map (fun u => (u, e)))).map
        Prod.snd =
      l.filter (fun e => (extractShiftUID e.notes).isSome) := by
  induction l with
  | nil => rfl
  | cons a rest ih =>
    cases hf : extractShiftUID a.notes with
    | none => simp [List.filterMap_cons, List.filter_cons, hf, ih]
    | some u => simp [List.filterMap_cons, List.filter_cons, hf, ih]

theorem filterMap_filter_marker (l : List EKEvent) :
    (l.filter (fun e => hasMarker e.notes)).filterMap
        (fun e => extractShiftUID e.notes) =
      l.filterMap (fun e => extractShiftUID e.notes) := by
  induction l with
  | nil => rfl
  | cons a rest ih =>
    cases hm : hasMarker a.notes with
    | true =>
      rw [List.filter_cons, if_pos hm, List.filterMap_cons, List.filterMap_cons, ih]
    | false =>
      have hf : extractShiftUID a.notes = none := by
        have hiso := hasMarker_eq_isSome a.notes
        rw [hm] at hiso
        cases hx : extractShiftUID a.notes with
        | none => rfl
        | some u =>
          rw [hx] at hiso
          simp at hiso
      rw [List.filter_cons, if_neg (by simp [hm]), List.filterMap_cons, hf]
      dsimp only
      exact ih

theorem getExisting_filter_isSome (st : EKStore) :
    (getExisting st).filter (fun e => (extractShiftUID e.notes).isSome) =
      getExisting st := by
  apply List.filter_eq_self.2
  intro e he
  exact (mem_getExisting_iff.1 he).2

/-- When the managed identities of the store are already duplicate-free,
the dedup pass removes nothing and only sorts the managed events. -/
theorem dedup_noop (st : EKStore)
    (h : ((getExisting st).filterMap (fun e => extractShiftUID e.notes)).Nodup) :
    deduplicateShiftEvents orcNone (getExisting st) st =
      .ok (sortByStart (getExisting st), st) := by
  have hscan := dedupScan_nodup_noop (getExisting st) [] (by simpa using h)
  rw [deduplicateShiftEvents, hscan]
  dsimp only
  rw [ekRemoveAll]
  dsimp only
  rw [List.nil_append, dedupPairs_snd, getExisting_filter_isSome]

/-! ### The apply loop when every desired shift already matches -/

theorem ekApplyLoop_all_skip (shifts : List Shift) :
    ∀ (snapshot : List EKEvent) (uids : List Str) (st : EKStore)
      (r : SyncResult),
    (∀ s ∈ shifts, uids.contains s.uid = true ∧
      ∃ ev, snapshot.find? (fun e => extractShiftUID e.notes == some s.uid) =
          some ev ∧ needsUpdate ev s = false) →
    ekApplyLoop orcNone shifts snapshot uids st r = .ok (st, r) := by
  induction shifts with
  | nil =>
    intro snapshot uids st r _
    rfl
  | cons s rest ih =>
    intro snapshot uids st r h
    obtain ⟨hc, ev, hfind, hnu⟩ := h s (by simp)
    rw [ekApplyLoop, if_pos hc, hfind]
    dsimp only
    rw [hnu]
    simp only [Bool.false_eq_true, if_false]
    exact ih snapshot uids st r (fun x hx => h x (by simp [hx]))

/-- Claim C1 run-2 engine: on a synced store, with the clock not moved
backwards, `syncShifts` succeeds, changes nothing, and returns the
zero-count result. -/
theorem ekSyncShifts_synced_noop (shifts : List Shift) (st : EKStore)
    (now now2 : Int) (hs : Synced shifts now st) (hn : now ≤ now2) :
    ekSyncShifts orcNone shifts st now2 = .ok (SyncResult.empty, st) := by
  obtain ⟨h1, h2, h3⟩ := hs
  have hman : ((getExisting st).filterMap
      (fun e => extractShiftUID e.notes)).Nodup := by
    rw [getExisting, filterMap_filter_marker]
    exact h1
  have hded := dedup_noop st hman
  have hndsnap : ((sortByStart (getExisting st)).filterMap
      (fun e => extractShiftUID e.notes)).Nodup := by
    have hperm := (sortByStart_perm (getExisting st)).filterMap
      (fun e => extractShiftUID e.notes)
    exact (hperm.nodup_iff).2 hman
  have htd : ekToDelete (sortByStart (getExisting st)) (shifts.map (·.uid))
      now2 = [] := by
    rw [ekToDelete]
    apply List.filter_eq_nil_iff.2
    intro e he
    have hemem : e ∈ getExisting st :=
      ((sortByStart_perm (getExisting st)).mem_iff).1 he
    obtain ⟨hest, hsome⟩ := mem_getExisting_iff.1 hemem
    cases hx : extractShiftUID e.notes with
    | none => simp [hx]
    | some u =>
      by_cases hu : u ∈ shifts.map (·.uid)
      · have hcu : ((shifts.map (·.uid)).contains u) = true :=
          contains_true_of_mem hu
        simp [hx, hcu]
        intro _
        obtain ⟨x, hxs, hxu⟩ := List.mem_map.1 hu
        exact ⟨x, hxs, hxu⟩
      · have hend : e.endDate < now2 := lt_of_lt_of_le (h3 e hest u hx hu) hn
        simp [hx, hend]
  have happly : ekApplyLoop orcNone shifts (sortByStart (getExisting st))
      ((sortByStart (getExisting st)).filterMap
        (fun e => extractShiftUID e.notes)) st SyncResult.empty =
      .ok (st, SyncResult.empty) := by
    apply ekApplyLoop_all_skip
    intro s hsns
    obtain ⟨e, hest, hex, hce⟩ := h2 s hsns
    have hsnap : e ∈ sortByStart (getExisting st) :=
      ((sortByStart_perm (getExisting st)).mem_iff).2
        (mem_getExisting_iff.2 ⟨hest, by rw [hex]; rfl⟩)
    refine ⟨?_, e, ?_, ?_⟩
    · exact contains_true_of_mem
        (List.mem_filterMap.2 ⟨e, hsnap, hex⟩)
    · exact find?_uid_unique hndsnap hsnap hex
    · exact (needsUpdate_eq_false_iff e s).2 hce
  rw [ekSyncShifts, hded]
  dsimp only
  rw [htd, ekDeleteLoop]
  dsimp only
  rw [happly]
  dsimp only
  rw [hded]

/-! ### The create/update loop: full characterisation under `orcNone` -/

/-- One induction carries the loop invariants of `ekApplyLoop`: a
well-formed store whose managed identities stay duplicate-free, a snapshot
whose looked-up objects are live, and on exit coverage of every processed
shift, provenance of every store event, and preservation of untouched
events. -/
theorem ekApplyLoop_spec (rest : List Shift) :
    ∀ (snapshot : List EKEvent) (uids : List Str) (st : EKStore)
      (r : SyncResult),
    WFStore st →
    ((snapshot.map (·.eid)).Nodup) →
    ((snapshot.filterMap (fun e => extractShiftUID e.notes)).Nodup) →
    uids = snapshot.filterMap (fun e => extractShiftUID e.notes) →
    (∀ e ∈ snapshot, ∀ u, extractShiftUID e.notes = some u →
      u ∈ rest.map (·.uid) → e ∈ st.events) →
    ((rest.map (·.uid)).Nodup) →
    (∀ s ∈ rest, ∀ c ∈ s.uid, (c != '\n') = true) →
    ((st.events.filterMap (fun e => extractShiftUID e.notes)).Nodup) →
    (∀ u ∈ st.events.filterMap (fun e => extractShiftUID e.notes),
      u ∈ uids ∨ u ∉ rest.map (·.uid)) →
    ∃ st2 r2, ekApplyLoop orcNone rest snapshot uids st r = .ok (st2, r2) ∧
      WFStore st2 ∧
      ((st2.events.filterMap (fun e => extractShiftUID e.notes)).Nodup) ∧
      (∀ s ∈ rest, ∃ e ∈ st2.events,
        extractShiftUID e.notes = some s.uid ∧ contentEq e s) ∧
      (∀ e2 ∈ st2.events, e2 ∈ st.events ∨
        ∃ s ∈ rest, extractShiftUID e2.notes = some s.uid ∧ contentEq e2 s) ∧
      (∀ e ∈ st.events,
        (∀ u, extractShiftUID e.notes = some u → u ∉ rest.map (·.uid)) →
        e ∈ st2.events) := by
  induction rest with
  | nil =>
    intro snapshot uids st r hwf _ _ _ _ _ _ hstnd _
    exact ⟨st, r, rfl, hwf, hstnd, by simp, fun e2 he2 => Or.inl he2,
      fun e he _ => he⟩
  | cons s tail ih =>
    intro snapshot uids st r hwf hsneid hsnuid huids hlive hnd hnl hstnd hstcov
    have hheadnotin : s.uid ∉ tail.map (·.uid) := by
      rw [List.map_cons, List.nodup_cons] at hnd
      exact hnd.1
    have hndtail : (tail.map (·.uid)).Nodup := by
      rw [List.map_cons, List.nodup_cons] at hnd
      exact hnd.2
    rw [ekApplyLoop]
    by_cases hc : uids.contains s.uid = true
    · rw [if_pos hc]
      have hmemu : s.uid ∈ snapshot.filterMap (fun e => extractShiftUID e.notes) := by
        rw [← huids]
        simpa using hc
      obtain ⟨ev, hevsnap, hevx⟩ := List.mem_filterMap.1 hmemu
      have hfind : snapshot.find?
          (fun e => extractShiftUID e.notes == some s.uid) = some ev :=
        find?_uid_unique hsnuid hevsnap hevx
      rw [hfind]
      dsimp only
      have hevst : ev ∈ st.events := hlive ev hevsnap s.uid hevx (by simp)
      cases hnu : needsUpdate ev s with
      | false =>
        simp only [Bool.false_eq_true, if_false]
        obtain ⟨st2, r2, heq, hwf2, hnd2, hcov2, hprov2, hpres2⟩ :=
          ih snapshot uids st r hwf hsneid hsnuid huids
            (fun e he u hx hm => hlive e he u hx (by simp [hm]))
            hndtail (fun x hx => hnl x (by simp [hx])) hstnd
            (fun u hu => (hstcov u hu).imp id
              (fun hx hm => hx (by simp [hm])))
        refine ⟨st2, r2, heq, hwf2, hnd2, ?_, ?_, ?_⟩
        · intro x hx
          rcases List.mem_cons.1 hx with rfl | hxt
          · refine ⟨ev, ?_, hevx, (needsUpdate_eq_false_iff ev x).1 hnu⟩
            refine hpres2 ev hevst ?_
            intro u hxu
            rw [hevx] at hxu
            cases Option.some.inj hxu
            exact hheadnotin
          · exact hcov2 x hxt
        · intro e2 he2
          rcases hprov2 e2 he2 with hin | ⟨x, hxt, hxx, hxc⟩
          · exact Or.inl hin
          · exact Or.inr ⟨x, by simp [hxt], hxx, hxc⟩
        · intro e he hcond
          exact hpres2 e he (fun u hxu hm => hcond u hxu (by simp [hm]))
      | true =>
        simp only [if_true]
        have horc : orcNone (.saveOp ev.eid) = false := rfl
        rw [horc]
        simp only [Bool.false_eq_true, if_false]
        have hev2eid : (updateEvent ev s).eid = ev.eid := rfl
        have hev2notes : (updateEvent ev s).notes = ev.notes := rfl
        have hev2x : extractShiftUID (updateEvent ev s).notes = some s.uid := by
          rw [hev2notes]
          exact hevx
        have hwfN : WFStore ⟨replaceEvent st.events (updateEvent ev s),
            st.nextEid⟩ := by
          constructor
          · show ((replaceEvent st.events (updateEvent ev s)).map (·.eid)).Nodup
            rw [replaceEvent_eids]
            exact hwf.1
          · intro e heN
            rcases mem_replaceEvent_cases heN with rfl | ⟨hmem, _⟩
            · exact hwf.2 ev hevst
            · exact hwf.2 e hmem
        have hsnfm : (replaceEvent snapshot (updateEvent ev s)).filterMap
            (fun e => extractShiftUID e.notes) =
            snapshot.filterMap (fun e => extractShiftUID e.notes) :=
          replaceEvent_filterMap hsneid hevsnap hev2eid hev2notes
        have hstfm : (replaceEvent st.events (updateEvent ev s)).filterMap
            (fun e => extractShiftUID e.notes) =
            st.events.filterMap (fun e => extractShiftUID e.notes) :=
          replaceEvent_filterMap hwf.1 hevst hev2eid hev2notes
        obtain ⟨st2, r2, heq, hwf2, hnd2, hcov2, hprov2, hpres2⟩ :=
          ih (replaceEvent snapshot (updateEvent ev s)) uids
            ⟨replaceEvent st.events (updateEvent ev s), st.nextEid⟩
            { r with updated := r.updated + 1,
                     updatedShifts := r.updatedShifts ++ [s] }
            hwfN
            (by rw [show ((replaceEvent snapshot (updateEvent ev s)).map (·.eid)) =
                  snapshot.map (·.eid) from replaceEvent_eids snapshot _]
                exact hsneid)
            (by rw [hsnfm]; exact hsnuid)
            (by rw [hsnfm]; exact huids)
            (by
              intro e heN u hxu hm
              rcases mem_replaceEvent_cases heN with rfl | ⟨hmem2, hne2⟩
              · exfalso
                rw [hev2x] at hxu
                cases Option.some.inj hxu
                exact hheadnotin hm
              · have hest : e ∈ st.events :=
                  hlive e hmem2 u hxu (by simp [hm])
                exact mem_replaceEvent_of_ne hest hne2)
            hndtail (fun x hx => hnl x (by simp [hx]))
            (by rw [hstfm]; exact hstnd)
            (by
              intro u hu
              rw [hstfm] at hu
              exact (hstcov u hu).imp id (fun hx hm => hx (by simp [hm])))
        refine ⟨st2, r2, heq, hwf2, hnd2, ?_, ?_, ?_⟩
        · intro x hx
          rcases List.mem_cons.1 hx with rfl | hxt
          · refine ⟨updateEvent ev x, ?_, hev2x, ⟨rfl, rfl, rfl, rfl⟩⟩
            refine hpres2 (updateEvent ev x) (mem_replaceEvent_self hevst rfl) ?_
            intro u hxu
            rw [hev2x] at hxu
            cases Option.some.inj hxu
            exact hheadnotin
          · exact hcov2 x hxt
        · intro e2 he2
          rcases hprov2 e2 he2 with hin | ⟨x, hxt, hxx, hxc⟩
          · rcases mem_replaceEvent_cases hin with rfl | ⟨hmem2, _⟩
            · exact Or.inr ⟨s, by simp, hev2x, ⟨rfl, rfl, rfl, rfl⟩⟩
            · exact Or.inl hmem2
          · exact Or.inr ⟨x, by simp [hxt], hxx, hxc⟩
        · intro e he hcond
          have hne : e.eid ≠ (updateEvent ev s).eid := by
            intro hcontra
            have : e = ev := nodup_eids_eq hwf.1 he hevst (hcontra.trans hev2eid)
            subst this
            exact hcond s.uid hevx (by simp)
          refine hpres2 e (mem_replaceEvent_of_ne he hne) ?_
          intro u hxu hm
          exact hcond u hxu (by simp [hm])
    · rw [if_neg hc]
      have horc : orcNone (.saveOp st.nextEid) = false := rfl
      rw [horc]
      simp only [Bool.false_eq_true, if_false]
      have hcx : extractShiftUID (createEventFor s st.nextEid).notes =
          some s.uid :=
        extract_createNotes s.memo (hnl s (by simp))
      have hsnotin : s.uid ∉ st.events.filterMap
          (fun e => extractShiftUID e.notes) := by
        intro hmem
        rcases hstcov s.uid hmem with hin | hnin
        · exact hc (contains_true_of_mem hin)
        · exact hnin (by simp)
      have hstfmN : (st.events ++ [createEventFor s st.nextEid]).filterMap
          (fun e => extractShiftUID e.notes) =
          st.events.filterMap (fun e => extractShiftUID e.notes) ++ [s.uid] := by
        rw [List.filterMap_append]
        rw [show ([createEventFor s st.nextEid].filterMap
          (fun e => extractShiftUID e.notes)) = [s.uid] by
            rw [List.filterMap_cons, hcx]
            rfl]
      have hwfN : WFStore ⟨st.events ++ [createEventFor s st.nextEid],
          st.nextEid + 1⟩ := by
        constructor
        · show (((st.events ++ [createEventFor s st.nextEid]).map (·.eid))).Nodup
          rw [List.map_append]
          rw [List.nodup_append]
          refine ⟨hwf.1, by simp, ?_⟩
          intro a ha hb
          simp only [List.map_cons, List.map_nil, List.mem_singleton] at hb
          obtain ⟨x, hx, hxa⟩ := List.mem_map.1 ha
          have : x.eid < st.nextEid := hwf.2 x hx
          rw [hxa, hb] at this
          exact lt_irrefl _ this
        · intro e heN
          rcases List.mem_append.1 heN with hin | hnew
          · exact Nat.lt_trans (hwf.2 e hin) (Nat.lt_succ_self _)
          · rw [List.mem_singleton.1 hnew]
            exact Nat.lt_succ_self _
      obtain ⟨st2, r2, heq, hwf2, hnd2, hcov2, hprov2, hpres2⟩ :=
        ih snapshot uids
          ⟨st.events ++ [createEventFor s st.nextEid], st.nextEid + 1⟩
          { r with added := r.added + 1,
                   addedShifts := r.addedShifts ++ [s] }
          hwfN hsneid hsnuid huids
          (fun e he u hx hm =>
            List.mem_append_left _ (hlive e he u hx (by simp [hm])))
          hndtail (fun x hx => hnl x (by simp [hx]))
          (by
            rw [hstfmN, List.nodup_append]
            exact ⟨hstnd, by simp, fun a ha hb => by
              rw [List.mem_singleton.1 hb] at ha
              exact hsnotin ha⟩)
          (by
            intro u hu
            rw [hstfmN] at hu
            rcases List.mem_append.1 hu with hold | hnew
            · exact (hstcov u hold).imp id (fun hx hm => hx (by simp [hm]))
            · rw [List.mem_singleton.1 hnew]
              exact Or.inr hheadnotin)
      refine ⟨st2, r2, heq, hwf2, hnd2, ?_, ?_, ?_⟩
      · intro x hx
        rcases List.mem_cons.1 hx with rfl | hxt
        · refine ⟨createEventFor x st.nextEid, ?_, hcx, ⟨rfl, rfl, rfl, rfl⟩⟩
          refine hpres2 (createEventFor x st.nextEid)
            (List.mem_append_right _ (by simp)) ?_
          intro u hxu
          rw [hcx] at hxu
          cases Option.some.inj hxu
          exact hheadnotin
        · exact hcov2 x hxt
      · intro e2 he2
        rcases hprov2 e2 he2 with hin | ⟨x, hxt, hxx, hxc⟩
        · rcases List.mem_append.1 hin with hold | hnew
          · exact Or.inl hold
          · rw [List.mem_singleton.1 hnew]
            exact Or.inr ⟨s, by simp, hcx, ⟨rfl, rfl, rfl, rfl⟩⟩
        · exact Or.inr ⟨x, by simp [hxt], hxx, hxc⟩
      · intro e he hcond
        refine hpres2 e (List.mem_append_left _ he) ?_
        intro u hxu hm
        exact hcond u hxu (by simp [hm])

/-! ### A first run under `orcNone` leaves a synced store -/

theorem ekSyncShifts_establishes_synced (shifts : List Shift) (st : EKStore)
    (now : Int) (hwf : WFStore st) (hnd : (shifts.map (·.uid)).Nodup)
    (hnl : ∀ s ∈ shifts, ∀ c ∈ s.uid, (c != '\n') = true) :
    ∃ r1 st1, ekSyncShifts orcNone shifts st now = .ok (r1, st1) ∧
      Synced shifts now st1 := by
  obtain ⟨sel, dups, hscan⟩ :
      ∃ sel dups, dedupScan (getExisting st) [] = (sel, dups) := ⟨_, _, rfl⟩
  obtain ⟨hA1, hA2, hA3, hA4, _⟩ :=
    dedupScan_spec (getExisting st) [] (by simp) (by simp)
  rw [hscan] at hA1 hA2 hA3 hA4
  dsimp only at hA1 hA2 hA3 hA4
  have hA4' : List.Perm (sel.map Prod.snd ++ dups) (getExisting st) := by
    rw [List.map_nil, List.nil_append, getExisting_filter_isSome] at hA4
    exact hA4
  have hsubevs : List.Sublist (getExisting st) st.events := by
    rw [getExisting]
    exact List.filter_sublist _
  have hevs_eid : ((getExisting st).map (·.eid)).Nodup :=
    List.Nodup.sublist (hsubevs.map (·.eid)) hwf.1
  have hK3 : ((sel.map Prod.snd).map (·.eid) ++ dups.map (·.eid)).Nodup := by
    have h := (hA4'.map (·.eid)).nodup_iff.2 hevs_eid
    rw [List.map_append] at h
    exact h
  obtain ⟨hsel_eid, hdups_eid, hdisj⟩ := List.nodup_append.1 hK3
  have hmem_split : ∀ e : EKEvent,
      e ∈ getExisting st ↔ e ∈ sel.map Prod.snd ∨ e ∈ dups := by
    intro e
    rw [← hA4'.mem_iff, List.mem_append]
  have hsurv_in_st1 : ∀ e ∈ sel.map Prod.snd,
      e ∈ st.events.filter
        (fun x => !((dups.map (·.eid)).contains x.eid)) := by
    intro e he
    have hevs : e ∈ getExisting st := (hmem_split e).2 (Or.inl he)
    have hste : e ∈ st.events := hsubevs.subset hevs
    have hnotin : e.eid ∉ dups.map (·.eid) :=
      hdisj (List.mem_map_of_mem (·.eid) he)
    refine List.mem_filter.2 ⟨hste, ?_⟩
    simpa using hnotin
  have hst1_managed_in_sel : ∀ e ∈ st.events.filter
      (fun x => !((dups.map (·.eid)).contains x.eid)),
      (extractShiftUID e.notes).isSome → e ∈ sel.map Prod.snd := by
    intro e he hsome
    obtain ⟨hste, hcontains⟩ := List.mem_filter.1 he
    have hnotin : e.eid ∉ dups.map (·.eid) := by
      simpa using hcontains
    have hevs : e ∈ getExisting st := mem_getExisting_iff.2 ⟨hste, hsome⟩
    rcases (hmem_split e).1 hevs with hs | hd
    · exact hs
    · exact absurd (List.mem_map_of_mem (·.eid) hd) hnotin
  have hsel_val_inj : ∀ x ∈ sel.map Prod.snd, ∀ y ∈ sel.map Prod.snd, ∀ u,
      extractShiftUID x.notes = some u → extractShiftUID y.notes = some u →
      x = y := by
    intro x hx y hy u hxu hyu
    obtain ⟨p, hp, hpx⟩ := List.mem_map.1 hx
    obtain ⟨q, hq, hqy⟩ := List.mem_map.1 hy
    have hpu : p.1 = u := by
      have := hA2 p hp
      rw [hpx, hxu] at this
      exact (Option.some.inj this).symm
    have hqu : q.1 = u := by
      have := hA2 q hq
      rw [hqy, hyu] at this
      exact (Option.some.inj this).symm
    have : p = q := nodup_keys_eq hA1 hp hq (hpu.trans hqu.symm)
    rw [← hpx, ← hqy, this]
  have hded1 : deduplicateShiftEvents orcNone (getExisting st) st =
      .ok (sortByStart (sel.map Prod.snd),
        ⟨st.events.filter (fun x => !((dups.map (·.eid)).contains x.eid)),
         st.nextEid⟩) := by
    rw [deduplicateShiftEvents, hscan]
    dsimp only
    rw [ekRemoveAll_ok]
  have hE_perm : List.Perm (sortByStart (sel.map Prod.snd)) (sel.map Prod.snd) :=
    sortByStart_perm _
  have hE_eid : ((sortByStart (sel.map Prod.snd)).map (·.eid)).Nodup :=
    (hE_perm.map (·.eid)).nodup_iff.2 hsel_eid
  have hE_fm_perm : List.Perm
      ((sortByStart (sel.map Prod.snd)).filterMap
        (fun e => extractShiftUID e.notes))
      (sel.map Prod.fst) := by
    have h := hE_perm.filterMap (fun e => extractShiftUID e.notes)
    rw [tagged_filterMap hA2] at h
    exact h
  have hE_fm_nodup : ((sortByStart (sel.map Prod.snd)).filterMap
      (fun e => extractShiftUID e.notes)).Nodup :=
    hE_fm_perm.nodup_iff.2 hA1
  obtain ⟨rD, hdel⟩ := ekDeleteLoop_ok
    (ekToDelete (sortByStart (sel.map Prod.snd)) (shifts.map (·.uid)) now)
    ⟨st.events.filter (fun x => !((dups.map (·.eid)).contains x.eid)),
     st.nextEid⟩
    SyncResult.empty
  have hTD_sub : List.Sublist (ekToDelete (sortByStart (sel.map Prod.snd))
      (shifts.map (·.uid)) now) (sortByStart (sel.map Prod.snd)) := by
    rw [ekToDelete]
    exact List.filter_sublist _
  have hL2sub : List.Sublist ((st.events.filter
      (fun x => !((dups.map (·.eid)).contains x.eid))).filter
        (fun x => !(((ekToDelete (sortByStart (sel.map Prod.snd))
          (shifts.map (·.uid)) now).map (·.eid)).contains x.eid)))
      st.events :=
    (List.filter_sublist _).trans (List.filter_sublist _)
  have hwf2 : WFStore ⟨((st.events.filter
      (fun x => !((dups.map (·.eid)).contains x.eid))).filter
        (fun x => !(((ekToDelete (sortByStart (sel.map Prod.snd))
          (shifts.map (·.uid)) now).map (·.eid)).contains x.eid))),
      st.nextEid⟩ :=
    ⟨List.Nodup.sublist (hL2sub.map (·.eid)) hwf.1,
     fun e he => hwf.2 e (hL2sub.subset he)⟩
  have hst2_managed_in_sel : ∀ e ∈ ((st.events.filter
      (fun x => !((dups.map (·.eid)).contains x.eid))).filter
        (fun x => !(((ekToDelete (sortByStart (sel.map Prod.snd))
          (shifts.map (·.uid)) now).map (·.eid)).contains x.eid))),
      (extractShiftUID e.notes).isSome → e ∈ sel.map Prod.snd := by
    intro e he hsome
    exact hst1_managed_in_sel e (List.mem_filter.1 he).1 hsome
  have hlive2 : ∀ e ∈ sortByStart (sel.map Prod.snd), ∀ u,
      extractShiftUID e.notes = some u → u ∈ shifts.map (·.uid) →
      e ∈ ((st.events.filter
        (fun x => !((dups.map (·.eid)).contains x.eid))).filter
          (fun x => !(((ekToDelete (sortByStart (sel.map Prod.snd))
            (shifts.map (·.uid)) now).map (·.eid)).contains x.eid))) := by
    intro e he u hx hu
    have hsel2 : e ∈ sel.map Prod.snd := hE_perm.mem_iff.1 he
    have hnotTD : e ∉ ekToDelete (sortByStart (sel.map Prod.snd))
        (shifts.map (·.uid)) now := by
      intro hin
      rw [ekToDelete] at hin
      obtain ⟨_, hpred⟩ := List.mem_filter.1 hin
      rw [hx] at hpred
      dsimp only at hpred
      by_cases hend : e.endDate < now
      · rw [if_pos hend] at hpred
        simp at hpred
      · rw [if_neg hend] at hpred
        rw [contains_true_of_mem hu] at hpred
        simp at hpred
    have heidnot : e.eid ∉ (ekToDelete (sortByStart (sel.map Prod.snd))
        (shifts.map (·.uid)) now).map (·.eid) := by
      intro hin
      obtain ⟨d, hd, hde⟩ := List.mem_map.1 hin
      have : d = e := nodup_eids_eq hE_eid (hTD_sub.subset hd) he hde
      exact hnotTD (this ▸ hd)
    refine List.mem_filter.2 ⟨hsurv_in_st1 e hsel2, ?_⟩
    simpa using heidnot
  have hst2nd : (((st.events.filter
      (fun x => !((dups.map (·.eid)).contains x.eid))).filter
        (fun x => !(((ekToDelete (sortByStart (sel.map Prod.snd))
          (shifts.map (·.uid)) now).map (·.eid)).contains x.eid))).filterMap
      (fun e => extractShiftUID e.notes)).Nodup := by
    apply nodup_filterMap_of_inj
    · exact List.Nodup.of_map _
        (List.Nodup.sublist (hL2sub.map (·.eid)) hwf.1)
    · intro x hx y hy u hxu hyu
      exact hsel_val_inj x (hst2_managed_in_sel x hx (by rw [hxu]; rfl)) y
        (hst2_managed_in_sel y hy (by rw [hyu]; rfl)) u hxu hyu
  have hst2cov : ∀ u ∈ ((st.events.filter
      (fun x => !((dups.map (·.eid)).contains x.eid))).filter
        (fun x => !(((ekToDelete (sortByStart (sel.map Prod.snd))
          (shifts.map (·.uid)) now).map (·.eid)).contains x.eid))).filterMap
      (fun e => extractShiftUID e.notes),
      u ∈ (sortByStart (sel.map Prod.snd)).filterMap
        (fun e => extractShiftUID e.notes) ∨ u ∉ shifts.map (·.uid) := by
    intro u hu
    obtain ⟨e, he, hx⟩ := List.mem_filterMap.1 hu
    have hsel2 : e ∈ sel.map Prod.snd :=
      hst2_managed_in_sel e he (by rw [hx]; rfl)
    refine Or.inl (hE_fm_perm.mem_iff.2 ?_)
    obtain ⟨p, hp, hpe⟩ := List.mem_map.1 hsel2
    have hpu : p.1 = u := by
      have htg := hA2 p hp
      rw [hpe, hx] at htg
      exact (Option.some.inj htg).symm
    rw [← hpu]
    exact List.mem_map_of_mem Prod.fst hp
  obtain ⟨st3, rA, heq3, hwf3, hnd3, hcov3, hprov3, hpres3⟩ :=
    ekApplyLoop_spec shifts (sortByStart (sel.map Prod.snd))
      ((sortByStart (sel.map Prod.snd)).filterMap
        (fun e => extractShiftUID e.notes))
      ⟨((st.events.filter
        (fun x => !((dups.map (·.eid)).contains x.eid))).filter
          (fun x => !(((ekToDelete (sortByStart (sel.map Prod.snd))
            (shifts.map (·.uid)) now).map (·.eid)).contains x.eid))),
       st.nextEid⟩
      rD hwf2 hE_eid hE_fm_nodup rfl hlive2 hnd hnl hst2nd hst2cov
  have hded3 : deduplicateShiftEvents orcNone (getExisting st3) st3 =
      .ok (sortByStart (getExisting st3), st3) := by
    apply dedup_noop
    rw [getExisting, filterMap_filter_marker]
    exact hnd3
  refine ⟨rA, st3, ?_, hnd3, hcov3, ?_⟩
  · rw [ekSyncShifts, hded1]
    dsimp only
    rw [hdel]
    dsimp only
    rw [heq3]
    dsimp only
    rw [hded3]
  · intro e he u hx hu
    rcases hprov3 e he with hin | ⟨s, hs, hsx, _⟩
    · have hsome : (extractShiftUID e.notes).isSome := by rw [hx]; rfl
      have hsel2 : e ∈ sel.map Prod.snd := hst2_managed_in_sel e hin hsome
      have hE2 : e ∈ sortByStart (sel.map Prod.snd) := hE_perm.mem_iff.2 hsel2
      obtain ⟨_, hP2⟩ := List.mem_filter.1 hin
      have heidnot : e.eid ∉ (ekToDelete (sortByStart (sel.map Prod.snd))
          (shifts.map (·.uid)) now).map (·.eid) := by
        simpa using hP2
      have hnotTD : e ∉ ekToDelete (sortByStart (sel.map Prod.snd))
          (shifts.map (·.uid)) now :=
        fun hin2 => heidnot (List.mem_map_of_mem (·.eid) hin2)
      cases hb : (fun x : EKEvent => match extractShiftUID x.notes with
          | none => false
          | some uid => if x.endDate < now then false
            else !((shifts.map (fun s : Shift => s.uid)).contains uid)) e with
      | true =>
        exfalso
        refine hnotTD ?_
        rw [ekToDelete]
        exact List.mem_filter.2 ⟨hE2, hb⟩
      | false =>
        dsimp only at hb
        rw [hx] at hb
        dsimp only at hb
        by_cases hend : e.endDate < now
        · exact hend
        · exfalso
          rw [if_neg hend] at hb
          have hcu : ((shifts.map (·.uid)).contains u) = true := by
            cases hc2 : (shifts.map (·.uid)).contains u with
            | true => rfl
            | false =>
              rw [hc2] at hb
              simp at hb
          exact hu (by simpa using hcu)
    · exfalso
      rw [hsx] at hx
      cases Option.some.inj hx
      exact hu (List.mem_map_of_mem (·.uid) hs)

/-! ## Claim C1, amended theorem -/

/-- Claim C1 (amended): in the EventKit implementation, reconciliation run
twice in a row — same desired set with pairwise-distinct newline-free
identities, a well-formed store, no external mutation between the runs,
clock not moved backwards — returns a second `SyncResult` with
`added = updated = deleted = 0` and leaves the store untouched; moreover an
existing event passes `needsUpdate` exactly when its title, start, end or
location differs, so an identical match causes no write and no count. -/
theorem ek_second_run_is_noop (shifts : List Shift) (st : EKStore)
    (now now2 : Int) (r1 : SyncResult) (st1 : EKStore)
    (r2 : SyncResult) (st2 : EKStore)
    (hwf : WFStore st)
    (hnd : (shifts.map (·.uid)).Nodup)
    (hnl : ∀ s ∈ shifts, ∀ c ∈ s.uid, (c != '\n') = true)
    (hnow : now ≤ now2)
    (hrun1 : ekSyncShifts orcNone shifts st now = .ok (r1, st1))
    (hrun2 : ekSyncShifts orcNone shifts st1 now2 = .ok (r2, st2)) :
    r2.added = 0 ∧ r2.updated = 0 ∧ r2.deleted = 0 ∧ st2 = st1 ∧
    (∀ ev s, needsUpdate ev s = false ↔ contentEq ev s) := by
  obtain ⟨r1b, st1b, hrunb, hsync⟩ :=
    ekSyncShifts_establishes_synced shifts st now hwf hnd hnl
  rw [hrun1] at hrunb
  have hst1eq : st1 = st1b := congrArg Prod.snd (Except.ok.inj hrunb)
  have hsync1 : Synced shifts now st1 := by
    rw [hst1eq]
    exact hsync
  have hnoop := ekSyncShifts_synced_noop shifts st1 now now2 hsync1 hnow
  rw [hrun2] at hnoop
  have hr2 : r2 = SyncResult.empty := congrArg Prod.fst (Except.ok.inj hnoop)
  have hst2 : st2 = st1 := congrArg Prod.snd (Except.ok.inj hnoop)
  refine ⟨?_, ?_, ?_, hst2, fun ev s => needsUpdate_eq_false_iff ev s⟩
  · rw [hr2]
    rfl
  · rw [hr2]
    rfl
  · rw [hr2]
    rfl

theorem ek_second_run_is_noop_witness :
    SyncResult.empty.added = 0 ∧ SyncResult.empty.updated = 0 ∧
    SyncResult.empty.deleted = 0 ∧
    (⟨[createEventFor ⟨"u".toList, "t".toList, 29474520, 29475000,
      "l".toList, []⟩ 0], 1⟩ : EKStore) =
      ⟨[createEventFor ⟨"u".toList, "t".toList, 29474520, 29475000,
        "l".toList, []⟩ 0], 1⟩ ∧
    (∀ ev s, needsUpdate ev s = false ↔ contentEq ev s) :=
  ek_second_run_is_noop
    [⟨"u".toList, "t".toList, 29474520, 29475000, "l".toList, []⟩]
    ⟨[], 0⟩ 29474640 29474640
    ⟨1, 0, 0, [⟨"u".toList, "t".toList, 29474520, 29475000, "l".toList, []⟩],
      [], []⟩
    ⟨[createEventFor ⟨"u".toList, "t".toList, 29474520, 29475000,
      "l".toList, []⟩ 0], 1⟩
    SyncResult.empty
    ⟨[createEventFor ⟨"u".toList, "t".toList, 29474520, 29475000,
      "l".toList, []⟩ 0], 1⟩
    ⟨by decide, by decide⟩ (by decide) (by decide) (le_refl _)
    (by rfl) (by rfl)

end ShiftSync
